import Mathlib

/-!
A shallow embedding of the `regexp` package (regexp.go): the scanner, the
recursive-descent parser building a Thompson-style NFA in a node arena, and
the set-based NFA simulation, together with theorems settling the frozen
claims about the package.

Modelling conventions:
* Strings are lists of code points (`List Char`); the Go scanner decodes
  UTF-8 runes one at a time, so positions count runes here where the source
  counts bytes (the two agree on "all input consumed", the only place a
  position is compared to the length).  The scanner's `width` field is only
  ever used to implement the one-step `backup` inside `peek` and on error
  diagnostics, so it is not carried in the state.
* Node pointers become indices into a growing arena (`List Node`); the
  mutations performed through `addEpsilon`/`setNext` become functional
  updates of the arena.
* Go's `nodeSet` (a hash set) becomes a duplicate-free list in insertion
  order; the recursive `add` gets explicit fuel, with `arena length + 2`
  always sufficient (each non-trivial recursive frame inserts a distinct
  node).
* A Go `nil`-interface method call (which panics at runtime) is modelled by
  the distinguished outcome `panicked`; running out of fuel is the
  distinguished outcome `fuelOut` and is never reached at the fuel
  `compile` supplies.
-/

namespace RegexpNFA

/-- The Unicode replacement character: `utf8.RuneError`, which
`DecodeRuneInString` yields (with width 0) at end of input, and which the
parser therefore treats as the end-of-input sentinel. -/
def rError : Char := Char.ofNat 0xFFFD

/-- One constructor per concrete node type of the source
(`starNode`, `qmarkNode`, `plusNode`, `terminalNode`, `leftParenNode`,
`rightParenNode`, `pipeNode`, `dotNode`, `literalNode`). -/
inductive NodeKind where
  | star
  | qmark
  | plus
  | terminal
  | lparen
  | rparen
  | pipe
  | dot
  | literal (r : Char)
deriving DecidableEq, Repr

/-- An NFA node: its kind, its epsilon-successor list (`nodeBase`), and the
consuming successor (`matchBase.n`, meaningful for the match-capable kinds
`dot` and `literal`; `none` models a Go `nil`). -/
structure Node where
  kind : NodeKind
  eps : List Nat
  nxt : Option Nat
deriving DecidableEq, Repr

instance : Inhabited Node := ⟨⟨.pipe, [], none⟩⟩

/-- Arena lookup by index (pointer dereference in the source; out-of-range
indices never occur in compiled patterns). -/
def getN (a : List Node) (i : Nat) : Node := (a.get? i).getD default

/-- Does the node implement the `matchNode`/`matchBuilder` interfaces?
True exactly for `dotNode` and `literalNode`. -/
def isMatchKind : NodeKind → Bool
  | .dot => true
  | .literal _ => true
  | _ => false

/-- `dotNode.matches` / `literalNode.matches`; `false` for the epsilon-only
kinds, which the matcher never queries (the interface cast fails there). -/
def nodeMatches (nd : Node) (c : Char) : Bool :=
  match nd.kind with
  | .dot => true
  | .literal r => c == r
  | _ => false

/-- A parser fragment: `expr`'s `start` and `end` node (the source field
`end` is a Lean keyword, hence `fin`).  The nonempty case only. -/
structure Frag where
  start : Nat
  fin : Nat
deriving DecidableEq, Repr

/-- `expr`, whose zero value (both fields `nil`) represents the empty
fragment; `isEmpty` becomes `Option.isNone`. -/
abbrev Expr := Option Frag

/-- Parser state: the pattern, the cursor (rune index), and the node arena
grown through the `node` heap allocations of the source. -/
structure PState where
  input : List Char
  pos : Nat
  nodes : List Node
deriving DecidableEq, Repr

/-- `utf8.DecodeRuneInString` on the tail starting at `i`: the rune and its
width, `(RuneError, 0)` past the end.  A literal U+FFFD inside the pattern
decodes to the same rune value as end of input (with a nonzero width),
which is why the parser cannot tell it from exhaustion. -/
def decodeAt (p : List Char) (i : Nat) : Char × Nat :=
  match p.get? i with
  | some c => (c, 1)
  | none => (rError, 0)

/-- `parser.next`: decode at the cursor, advance by the decoded width. -/
def nextChar (st : PState) : Char × PState :=
  let d := decodeAt st.input st.pos
  (d.1, { st with pos := st.pos + d.2 })

/-- `parser.peek`: `next` then `backup`; the cursor is restored, so it is a
pure lookahead. -/
def peekChar (st : PState) : Char := (nextChar st).1

/-- `nodeBase.addEpsilon` on node `i`: append `j` to its epsilon list. -/
def addEps (st : PState) (i j : Nat) : PState :=
  let nd := getN st.nodes i
  { st with nodes := st.nodes.set i { nd with eps := nd.eps ++ [j] } }

/-- `matchBase.setNext` on node `i`. -/
def setNext (st : PState) (i j : Nat) : PState :=
  let nd := getN st.nodes i
  { st with nodes := st.nodes.set i { nd with nxt := some j } }

/-- Allocate a fresh node of kind `k` (a `&xxxNode{}` literal in the
source); returns its index. -/
def alloc (st : PState) (k : NodeKind) : Nat × PState :=
  (st.nodes.length, { st with nodes := st.nodes ++ [⟨k, [], none⟩] })

/-- The wiring step shared by `concat`: if the previous exit is a
`matchBuilder`, set its consuming successor, otherwise add an epsilon
edge. -/
def wireTo (st : PState) (i j : Nat) : PState :=
  if isMatchKind (getN st.nodes i).kind then setNext st i j else addEps st i j

/-- `concat` of two possibly-empty fragments. -/
def concat (st : PState) (e nx : Expr) : PState × Expr :=
  match e, nx with
  | none, b => (st, b)
  | some f, none => (st, some f)
  | some f, some g => (wireTo st f.fin g.start, some ⟨f.start, g.fin⟩)

/-- `concat` specialised to a nonempty left fragment (used by
`parseSubexp`, where the left side is the fresh `leftParenNode`). -/
def concatF (st : PState) (f : Frag) (nx : Expr) : PState × Frag :=
  match nx with
  | none => (st, f)
  | some g => (wireTo st f.fin g.start, ⟨f.start, g.fin⟩)

/-- `concatNode e n = concat e (expr{n, n})`; always nonempty. -/
def concatNode (st : PState) (e : Expr) (n : Nat) : PState × Frag :=
  match e with
  | none => (st, ⟨n, n⟩)
  | some f => (wireTo st f.fin n, ⟨f.start, n⟩)

/-- Outcome of a parsing function: success with a value and the new state, a
compile error, a Go runtime panic (nil-interface method call), or fuel
exhaustion (an artifact of the embedding, unreachable at the fuel `compile`
supplies). -/
inductive POut (α : Type) where
  | ok (a : α) (st : PState)
  | err
  | panicked
  | fuelOut
deriving DecidableEq

/-- `parseLiteral`: consume one rune, allocate a literal node. -/
def parseLiteral (st : PState) : POut Frag :=
  let r := nextChar st
  let n := alloc r.2 (.literal r.1)
  .ok ⟨n.1, n.1⟩ n.2

/-- `parseDot`: consume the dot, allocate a `dotNode`. -/
def parseDot (st : PState) : POut Frag :=
  let st₁ := (nextChar st).2
  let n := alloc st₁ .dot
  .ok ⟨n.1, n.1⟩ n.2

/-- `parseEscape`: consume the backslash; the next rune must be one of the
escapable metacharacters, in which case it is parsed as a literal. -/
def parseEscape (st : PState) : POut Frag :=
  let st₁ := (nextChar st).2
  let c := peekChar st₁
  if c = '?' ∨ c = '*' ∨ c = '+' ∨ c = '(' ∨ c = ')' ∨ c = '|' then
    parseLiteral st₁
  else .err

/-- `parseMeta`: consume the quantifier and wire the Thompson gadget onto
the term `t`.  The final case (a non-quantifier rune) mirrors the source's
`switch` falling through with `n = nil`, where `concatNode(term, nil)`
returns `term` unchanged; it is unreachable from `parseTerm`. -/
def parseMeta (st : PState) (t : Frag) : PState × Frag :=
  let r := nextChar st
  if r.1 = '+' then
    let n := alloc r.2 .plus
    let st₃ := addEps n.2 n.1 t.start
    concatNode st₃ (some t) n.1
  else if r.1 = '*' then
    let n := alloc r.2 .star
    let st₃ := addEps n.2 n.1 t.start
    let st₄ := addEps st₃ t.start n.1
    concatNode st₄ (some t) n.1
  else if r.1 = '?' then
    let n := alloc r.2 .qmark
    let st₃ := addEps n.2 t.start n.1
    concatNode st₃ (some t) n.1
  else (r.2, t)

mutual

/-- `parseClause` with its loop unrolled into fuel-indexed recursion; `e` is
the clause-so-far accumulator. -/
def parseClause (f : Nat) (e : Expr) (st : PState) : POut Expr :=
  match f with
  | 0 => .fuelOut
  | f + 1 =>
    let c := peekChar st
    if c = rError ∨ c = ')' then .ok e st
    else if c = '|' then
      match parsePipe f e st with
      | .ok e₁ st₁ => parseClause f e₁ st₁
      | .err => .err
      | .panicked => .panicked
      | .fuelOut => .fuelOut
    else
      match parseTerm f st with
      | .ok t st₁ =>
        let r := concat st₁ e (some t)
        parseClause f r.2 r.1
      | .err => .err
      | .panicked => .panicked
      | .fuelOut => .fuelOut

/-- `parsePipe`: consume the `'|'`, reject an empty left operand, parse the
rest of the clause, and fuse both sides into a fresh `pipeNode`.  An empty
right clause makes the source call `addEpsilon` through a nil interface,
a runtime panic. -/
def parsePipe (f : Nat) (lhs : Expr) (st : PState) : POut Expr :=
  match f with
  | 0 => .fuelOut
  | f + 1 =>
    let st₁ := (nextChar st).2
    match lhs with
    | none => .err
    | some lf =>
      match parseClause f none st₁ with
      | .ok rhs st₂ =>
        match rhs with
        | none => .panicked
        | some rf =>
          let st₃ := addEps st₂ rf.start lf.start
          let n := alloc st₃ .pipe
          let r₅ := concatNode n.2 (some rf) n.1
          let r₆ := concatNode r₅.1 (some lf) n.1
          .ok (some r₅.2) r₆.1
      | .err => .err
      | .panicked => .panicked
      | .fuelOut => .fuelOut

/-- `parseTerm`: reject a leading quantifier, dispatch on the lookahead to
an atom parser, then apply a quantifier if one follows. -/
def parseTerm (f : Nat) (st : PState) : POut Frag :=
  match f with
  | 0 => .fuelOut
  | f + 1 =>
    let c := peekChar st
    if c = '?' ∨ c = '+' ∨ c = '*' then .err
    else
      match
        (if c = '(' then parseSubexp f st
         else if c = '\\' then parseEscape st
         else if c = '.' then parseDot st
         else parseLiteral st) with
      | .ok t st₁ =>
        let c₂ := peekChar st₁
        if c₂ = '?' ∨ c₂ = '+' ∨ c₂ = '*' then
          let r := parseMeta st₁ t
          .ok r.2 r.1
        else .ok t st₁
      | .err => .err
      | .panicked => .panicked
      | .fuelOut => .fuelOut

/-- `parseSubexp`: consume the `'('`, parse the inner clause, require the
closing `')'`, and wrap the fragment between fresh paren nodes. -/
def parseSubexp (f : Nat) (st : PState) : POut Frag :=
  match f with
  | 0 => .fuelOut
  | f + 1 =>
    let st₁ := (nextChar st).2
    match parseClause f none st₁ with
    | .ok e st₂ =>
      let r := nextChar st₂
      if r.1 = ')' then
        let lp := alloc r.2 .lparen
        let rp := alloc lp.2 .rparen
        let r₆ := concatF rp.2 ⟨lp.1, lp.1⟩ e
        let r₇ := concatNode r₆.1 (some r₆.2) rp.1
        .ok r₇.2 r₇.1
      else .err
    | .err => .err
    | .panicked => .panicked
    | .fuelOut => .fuelOut

end

/-- Fuel supplied to the parser; generous (each rune of the pattern can
account for only a bounded number of recursive calls). -/
def parseFuel (p : List Char) : Nat := 4 * p.length + 16

/-- `parse`: run the outer clause, require the whole pattern consumed,
concatenate the unique `terminalNode`, and return the overall entry and the
terminal (the fragment's `start` and `end`). -/
def parse (p : List Char) : POut Frag :=
  match parseClause (parseFuel p) none ⟨p, 0, []⟩ with
  | .ok e st₁ =>
    if st₁.pos ≠ p.length then .err
    else
      let t := alloc st₁ .terminal
      let r := concatNode t.2 e t.1
      .ok r.2 r.1
  | .err => .err
  | .panicked => .panicked
  | .fuelOut => .fuelOut

/-- The compiled pattern: entry node, terminal node, the node arena (the
heap-allocated graph of the source), and the original pattern text. -/
structure Regexp where
  start : Nat
  term : Nat
  nodes : List Node
  pattern : List Char
deriving DecidableEq, Repr

/-- Result of `Compile`. -/
inductive CRes where
  | ok (r : Regexp)
  | err
  | panicked
  | fuelOut
deriving DecidableEq, Repr

/-- `Compile`. -/
def compile (p : List Char) : CRes :=
  match parse p with
  | .ok fr st => .ok ⟨fr.start, fr.fin, st.nodes, p⟩
  | .err => .err
  | .panicked => .panicked
  | .fuelOut => .fuelOut

/-- `MustCompile`: `none` models the panic on a failed compile. -/
def mustCompile (p : List Char) : Option Regexp :=
  match compile p with
  | .ok r => some r
  | _ => none

/-- `nodeSet.add` with explicit fuel: skip a present node, otherwise insert
it and recursively add its epsilon successors.  The list stays
duplicate-free and records insertion order. -/
def nsAdd (a : List Node) : Nat → List Nat → Nat → List Nat
  | 0, s, _ => s
  | f + 1, s, n =>
    if n ∈ s then s
    else ((getN a n).eps).foldl (nsAdd a f) (s ++ [n])

/-- Fuel that always suffices for `nsAdd`: every non-trivial recursive frame
inserts a distinct node, and all but possibly the last lie in the arena. -/
def closureFuel (a : List Node) : Nat := a.length + 2

/-- One node's contribution to the next live set: if it is a match node
accepting `c`, add its consuming successor (with epsilon closure).  A `nil`
consuming successor would make the source panic inside `add`; it cannot
occur in a compiled pattern, and is modelled as a skip. -/
def stepInto (a : List Node) (c : Char) (acc : List Nat) (i : Nat) : List Nat :=
  let nd := getN a i
  if nodeMatches nd c then
    match nd.nxt with
    | some k => nsAdd a (closureFuel a) acc k
    | none => acc
  else acc

/-- Build the next live set from the current one on input rune `c`. -/
def matchStep (a : List Node) (cur : List Nat) (c : Char) : List Nat :=
  cur.foldl (stepInto a c) []

/-- The matcher loop of `MatchString`: step per rune, fail fast on an empty
next set, and finally test membership of the terminal. -/
def matchRun (a : List Node) (tm : Nat) (cur : List Nat) : List Char → Bool
  | [] => cur.contains tm
  | c :: rest =>
    let nx := matchStep a cur c
    if nx = [] then false else matchRun a tm nx rest

/-- `Regexp.MatchString`. -/
def matchString (r : Regexp) (input : List Char) : Bool :=
  matchRun r.nodes r.term (nsAdd r.nodes (closureFuel r.nodes) [] r.start) input

/-- `compile(p).matches(input)` as a single partial map: `none` when the
pattern does not compile. -/
def compileMatch (p input : List Char) : Option Bool :=
  match compile p with
  | .ok r => some (matchString r input)
  | _ => none

/-! ### Properties and distinguished values used by the claims -/

/-- The metacharacters of the supported syntax. -/
def metaChars : List Char := ['?', '+', '*', '(', ')', '|', '\\', '.']

/-- A pattern character that is neither a metacharacter nor the scanner
sentinel: it is parsed by `parseLiteral` and matches only itself. -/
def plainChar (c : Char) : Prop := c ∉ metaChars ∧ c ≠ rError

instance : DecidablePred plainChar := fun c => by
  unfold plainChar; infer_instance

/-- Epsilon reachability in an arena: zero or more epsilon edges. -/
def epsReach (a : List Node) (u v : Nat) : Prop :=
  Relation.ReflTransGen (fun x y => y ∈ (getN a x).eps) u v

/-- A node set closed under single epsilon edges. -/
def epsClosed (a : List Node) (s : List Nat) : Prop :=
  ∀ i ∈ s, ∀ j ∈ (getN a i).eps, j ∈ s

/-- Node `i` is wired to continue at node `p`: through its consuming
successor if it is a match node, through an epsilon edge otherwise —
exactly the dichotomy of `concat`. -/
def wiredIn (a : List Node) (i p : Nat) : Prop :=
  if isMatchKind (getN a i).kind then (getN a i).nxt = some p
  else p ∈ (getN a i).eps

/-- Character of `p` at index `i` (sentinel when out of range). -/
def charAt (p : List Char) (i : Nat) : Char := (p.get? i).getD rError

/-- The arena after the clause parser has consumed the first `k` literals
of a metacharacter-free pattern: a chain of literal nodes, each feeding the
next through its consuming successor, the last one still unwired. -/
def openChain (p : List Char) (k : Nat) : List Node :=
  (List.range k).map (fun i =>
    ⟨.literal (charAt p i), [], if i + 1 = k then none else some (i + 1)⟩)

/-- The compiled arena of a metacharacter-free pattern: the literal chain
with the terminal node appended and the last literal wired to it. -/
def fullChain (p : List Char) : List Node :=
  (List.range p.length).map (fun i => ⟨.literal (charAt p i), [], some (i + 1)⟩)
    ++ [⟨.terminal, [], none⟩]

/-- The clause fragment held after `k` literals: empty for `k = 0`,
otherwise from node `0` to node `k - 1`. -/
def fragAt (k : Nat) : Expr := if k = 0 then none else some ⟨0, k - 1⟩

/-- The compiled form of a metacharacter-free pattern. -/
def chainRe (p : List Char) : Regexp := ⟨0, p.length, fullChain p, p⟩

/-- The compiled form of a single plain literal followed by `'+'`. -/
def plusRe (c : Char) : Regexp :=
  ⟨0, 2, [⟨.literal c, [], some 1⟩, ⟨.plus, [0, 2], none⟩, ⟨.terminal, [], none⟩],
    [c, '+']⟩

/-- The compiled form of the empty pattern: just the terminal node. -/
def emptyRe : Regexp := ⟨0, 0, [⟨.terminal, [], none⟩], []⟩

/-- The compiled form of the pattern `a*`. -/
def starA : Regexp :=
  ⟨0, 2, [⟨.literal 'a', [1], some 1⟩, ⟨.star, [0, 2], none⟩,
    ⟨.terminal, [], none⟩], ['a', '*']⟩

/-- A small arena exhibiting that `nsAdd` into a set that is not
epsilon-closed misses epsilon-reachable nodes: `0 → 1 → 2`. -/
def cexArena : List Node :=
  [⟨.pipe, [1], none⟩, ⟨.pipe, [2], none⟩, ⟨.terminal, [], none⟩]

/-- Both components of a nonempty fragment lie inside the arena. -/
def validE (e : Expr) (m : Nat) : Prop :=
  ∀ fr, e = some fr → fr.start < m ∧ fr.fin < m

/-- The index a fragment's exit occupies (`none` for the empty fragment). -/
def endIdx : Expr → Option Nat
  | none => none
  | some fr => some fr.fin

/-- Facts common to every parsing function: the pattern is untouched, the
cursor only advances, the arena only grows, and no consumed rune is the
sentinel U+FFFD. -/
def commonInv (st st' : PState) : Prop :=
  st'.input = st.input ∧ st.pos ≤ st'.pos ∧
  st.nodes.length ≤ st'.nodes.length ∧
  (∀ k, st.pos ≤ k → k < st'.pos → st.input.get? k ≠ some rError)

/-- All pre-existing arena entries except possibly `skip` are unchanged. -/
def framePres (st st' : PState) (skip : Option Nat) : Prop :=
  ∀ i, i < st.nodes.length → some i ≠ skip → st'.nodes.get? i = st.nodes.get? i

/-- Invariant of `parseClause` with accumulator `e₀`: of the pre-existing
nodes only `e₀`'s exit may be rewired, the result fragment lives in the
final arena, and it is either the untouched accumulator or has a fresh exit
(with entry either fresh or the accumulator's entry). -/
def clauseInv (e₀ : Expr) (st : PState) (res : Expr) (st' : PState) : Prop :=
  commonInv st st' ∧ framePres st st' (endIdx e₀) ∧
  validE res st'.nodes.length ∧
  (res = e₀ ∨ ∃ fr, res = some fr ∧ st.nodes.length ≤ fr.fin ∧
    (st.nodes.length ≤ fr.start ∨ ∃ f₀, e₀ = some f₀ ∧ fr.start = f₀.start))

/-- Invariant of `parseTerm`/`parseSubexp`: no pre-existing node is
touched and the returned fragment is entirely fresh. -/
def termInv (st : PState) (fr : Frag) (st' : PState) : Prop :=
  commonInv st st' ∧ framePres st st' none ∧
  st.nodes.length ≤ fr.start ∧ fr.start < st'.nodes.length ∧
  st.nodes.length ≤ fr.fin ∧ fr.fin < st'.nodes.length

/-- Invariant of `parsePipe`: of the pre-existing nodes only the left
operand's exit may be rewired, and the result is a fresh nonempty
fragment. -/
def pipeInv (lhs : Expr) (st : PState) (res : Expr) (st' : PState) : Prop :=
  commonInv st st' ∧ framePres st st' (endIdx lhs) ∧
  ∃ fr, res = some fr ∧ st.nodes.length ≤ fr.start ∧
    fr.start < st'.nodes.length ∧ st.nodes.length ≤ fr.fin ∧
    fr.fin < st'.nodes.length

/-- Number of arena nodes not yet in the set `s`; bounds the recursion
depth of `nsAdd`. -/
def missCount (a : List Node) (s : List Nat) : Nat :=
  (List.range a.length).countP (fun i => decide (i ∉ s))

/-- A node set closed under epsilon edges except for targets in the pending
list: the intermediate shape maintained while `nsAdd` is working. -/
def closedExcept (a : List Node) (s pend : List Nat) : Prop :=
  ∀ i ∈ s, ∀ j ∈ (getN a i).eps, j ∈ s ∨ j ∈ pend

/-! ### Theorems -/

/-! #### The live-node set: lemmas about `nsAdd` -/

theorem nsAdd_subset (a : List Node) :
    ∀ (f : Nat) (s : List Nat) (n : Nat), s ⊆ nsAdd a f s n := by
  intro f
  induction f with
  | zero => intro s n; rw [nsAdd]; exact fun x h => h
  | succ f ih =>
    have fold : ∀ (l : List Nat) (s : List Nat), s ⊆ l.foldl (nsAdd a f) s := by
      intro l
      induction l with
      | nil => intro s; simp
      | cons p l ihl => intro s; exact (ih s p).trans (ihl _)
    intro s n
    rw [nsAdd]
    by_cases hn : n ∈ s
    · simp [hn]
    · simp only [hn, if_false]
      exact (List.subset_append_left s [n]).trans (fold _ _)

theorem foldl_nsAdd_subset (a : List Node) (f : Nat) :
    ∀ (l : List Nat) (s : List Nat), s ⊆ l.foldl (nsAdd a f) s := by
  intro l
  induction l with
  | nil => intro s; simp
  | cons p l ihl => intro s; exact (nsAdd_subset a f s p).trans (ihl _)

theorem nsAdd_mem_self (a : List Node) (f : Nat) (s : List Nat) (n : Nat) :
    n ∈ nsAdd a (f + 1) s n := by
  rw [nsAdd]
  by_cases hn : n ∈ s
  · simp [hn]
  · simp only [hn, if_false]
    exact foldl_nsAdd_subset a f _ _ (by simp)

theorem nsAdd_sound (a : List Node) :
    ∀ (f : Nat) (s : List Nat) (n x : Nat),
      x ∈ nsAdd a f s n → x ∈ s ∨ epsReach a n x := by
  intro f
  induction f with
  | zero => intro s n x hx; rw [nsAdd] at hx; exact Or.inl hx
  | succ f ih =>
    intro s n x hx
    rw [nsAdd] at hx
    by_cases hn : n ∈ s
    · rw [if_pos hn] at hx; exact Or.inl hx
    · rw [if_neg hn] at hx
      have fold : ∀ (l : List Nat) (s₂ : List Nat),
          (∀ y ∈ s₂, y ∈ s ∨ epsReach a n y) →
          (∀ p ∈ l, epsReach a n p) →
          ∀ y ∈ l.foldl (nsAdd a f) s₂, y ∈ s ∨ epsReach a n y := by
        intro l
        induction l with
        | nil => intro s₂ hs₂ _ y hy; exact hs₂ y hy
        | cons p l ihl =>
          intro s₂ hs₂ hp y hy
          refine ihl _ ?_ (fun q hq => hp q (List.mem_cons_of_mem _ hq)) y hy
          intro z hz
          rcases ih s₂ p z hz with h | h
          · exact hs₂ z h
          · exact Or.inr ((hp p (List.mem_cons_self _ _)).trans h)
      refine fold _ _ ?_ ?_ x hx
      · intro y hy
        rcases List.mem_append.1 hy with h | h
        · exact Or.inl h
        · simp only [List.mem_singleton] at h
          exact Or.inr (h ▸ Relation.ReflTransGen.refl)
      · intro p hp
        exact Relation.ReflTransGen.single hp

theorem countP_notMem_le {s t : List Nat} (hst : s ⊆ t) (l : List Nat) :
    l.countP (fun i => decide (i ∉ t)) ≤ l.countP (fun i => decide (i ∉ s)) :=
  List.countP_mono_left (fun i _ hi => by
    simp only [decide_eq_true_eq] at hi ⊢
    exact fun h => hi (hst h))

theorem missCount_le_of_subset (a : List Node) {s t : List Nat} (hst : s ⊆ t) :
    missCount a t ≤ missCount a s :=
  countP_notMem_le hst _

theorem countP_notMem_insert_lt (s : List Nat) (n : Nat) (hn : n ∉ s) :
    ∀ l : List Nat, n ∈ l →
      l.countP (fun i => decide (i ∉ s ++ [n])) <
        l.countP (fun i => decide (i ∉ s)) := by
  intro l
  induction l with
  | nil => intro h; cases h
  | cons x l ihl =>
    intro hx
    rw [List.countP_cons, List.countP_cons]
    by_cases hxn : x = n
    · subst hxn
      rw [show (decide (x ∉ s ++ [x])) = false by simp,
        show (decide (x ∉ s)) = true by simpa using hn]
      have hle := countP_notMem_le (t := s ++ [x])
        (List.subset_append_left s [x]) l
      simp only [Bool.false_eq_true, if_false, if_true]
      omega
    · have hnl : n ∈ l := by
        rcases List.mem_cons.1 hx with h | h
        · exact absurd h.symm hxn
        · exact h
      have hsame : (decide (x ∉ s ++ [n])) = (decide (x ∉ s)) := by
        by_cases hxs : x ∈ s <;> simp [hxs, hxn]
      rw [hsame]
      have := ihl hnl
      omega

theorem missCount_insert_lt (a : List Node) (s : List Nat) (n : Nat)
    (hn : n ∉ s) (hna : n < a.length) :
    missCount a (s ++ [n]) < missCount a s :=
  countP_notMem_insert_lt s n hn _ (List.mem_range.2 hna)

theorem nsAdd_closedExcept (a : List Node) :
    ∀ (f : Nat) (s : List Nat) (n : Nat) (pend : List Nat),
      missCount a s + 2 ≤ f → closedExcept a s (n :: pend) →
      closedExcept a (nsAdd a f s n) pend := by
  intro f
  induction f with
  | zero => intro s n pend hf; omega
  | succ f ih =>
    intro s n pend hf hc
    rw [nsAdd]
    by_cases hn : n ∈ s
    · rw [if_pos hn]
      intro i hi j hj
      rcases hc i hi j hj with h | h
      · exact Or.inl h
      · rcases List.mem_cons.1 h with h | h
        · exact Or.inl (h ▸ hn)
        · exact Or.inr h
    · rw [if_neg hn]
      have fold : ∀ (l : List Nat) (s₂ : List Nat) (pend₂ : List Nat),
          missCount a s₂ + 2 ≤ f → closedExcept a s₂ (l ++ pend₂) →
          closedExcept a (l.foldl (nsAdd a f) s₂) pend₂ := by
        intro l
        induction l with
        | nil => intro s₂ pend₂ _ hcl; simpa using hcl
        | cons p l ihl =>
          intro s₂ pend₂ hf₂ hcl
          simp only [List.foldl_cons]
          refine ihl _ _ ?_ ?_
          · have := missCount_le_of_subset a (nsAdd_subset a f s₂ p)
            omega
          · exact ih s₂ p (l ++ pend₂) hf₂ (by simpa using hcl)
      by_cases hna : n < a.length
      · refine fold _ _ _ ?_ ?_
        · have := missCount_insert_lt a s n hn hna
          omega
        · intro i hi j hj
          rcases List.mem_append.1 hi with h | h
          · rcases hc i h j hj with h2 | h2
            · exact Or.inl (List.mem_append_left _ h2)
            · rcases List.mem_cons.1 h2 with h3 | h3
              · exact Or.inl (List.mem_append_right _ (by simp [h3]))
              · exact Or.inr (List.mem_append_right _ h3)
          · simp only [List.mem_singleton] at h
            subst h
            exact Or.inr (List.mem_append_left _ hj)
      · have heps : (getN a n).eps = [] := by
          unfold getN
          rw [List.get?_eq_none.2 (by omega)]
          rfl
        rw [heps]
        simp only [List.foldl_nil]
        intro i hi j hj
        rcases List.mem_append.1 hi with h | h
        · rcases hc i h j hj with h2 | h2
          · exact Or.inl (List.mem_append_left _ h2)
          · rcases List.mem_cons.1 h2 with h3 | h3
            · exact Or.inl (List.mem_append_right _ (by simp [h3]))
            · exact Or.inr h3
        · simp only [List.mem_singleton] at h
          subst h
          rw [heps] at hj
          cases hj

theorem missCount_le_len (a : List Node) (s : List Nat) :
    missCount a s ≤ a.length := by
  have := List.countP_le_length (l := List.range a.length)
    (fun i => decide (i ∉ s))
  simpa [missCount] using this

theorem epsClosed_nsAdd (a : List Node) (s : List Nat) (n : Nat)
    (hs : epsClosed a s) : epsClosed a (nsAdd a (closureFuel a) s n) := by
  have h := nsAdd_closedExcept a (closureFuel a) s n []
    (by have := missCount_le_len a s; simp [closureFuel]; omega)
    (fun i hi j hj => Or.inl (hs i hi j hj))
  intro i hi j hj
  rcases h i hi j hj with h2 | h2
  · exact h2
  · cases h2

theorem nsAdd_complete (a : List Node) (s : List Nat) (n : Nat)
    (hs : epsClosed a s) :
    ∀ x, epsReach a n x → x ∈ nsAdd a (closureFuel a) s n := by
  intro x hx
  induction hx with
  | refl =>
    have : closureFuel a = a.length + 1 + 1 := by simp [closureFuel]
    rw [this]
    exact nsAdd_mem_self a _ s n
  | tail _ hedge ihm =>
    exact epsClosed_nsAdd a s n hs _ ihm _ hedge

theorem nsAdd_nodup (a : List Node) :
    ∀ (f : Nat) (s : List Nat) (n : Nat), s.Nodup → (nsAdd a f s n).Nodup := by
  intro f
  induction f with
  | zero => intro s n h; rw [nsAdd]; exact h
  | succ f ih =>
    have fold : ∀ (l : List Nat) (s₂ : List Nat),
        s₂.Nodup → (l.foldl (nsAdd a f) s₂).Nodup := by
      intro l
      induction l with
      | nil => intro s₂ h; simpa
      | cons p l ihl => intro s₂ h; exact ihl _ (ih _ _ h)
    intro s n h
    rw [nsAdd]
    by_cases hn : n ∈ s
    · rw [if_pos hn]; exact h
    · rw [if_neg hn]
      refine fold _ _ ?_
      simp [List.nodup_append, h, hn]

/-- C9 counterexample: in the three-node arena `0 →ε 1 →ε 2`, adding node
`0` to the (not epsilon-closed) set `{1}` does not put the epsilon-reachable
node `2` into the set, because `add` stops at the already-present node `1`
without expanding its successors.  This refutes the claim for arbitrary
node sets. -/
theorem C9_counterexample :
    epsReach cexArena 0 2 ∧
      2 ∉ nsAdd cexArena (closureFuel cexArena) [1] 0 := by
  constructor
  · have e01 : 1 ∈ (getN cexArena 0).eps := by decide
    have e12 : 2 ∈ (getN cexArena 1).eps := by decide
    exact Relation.ReflTransGen.tail (Relation.ReflTransGen.single e01) e12
  · decide

/-- C9 (amended): for every arena and **any** node set `s`, adding a node
already present in `s` leaves `s` unchanged, and a duplicate-free set stays
duplicate-free; closure under epsilon-reachability, however, needs `s`
itself epsilon-closed: then adding `n` yields exactly `s` together with all
nodes epsilon-reachable from `n`. -/
theorem C9_nodeSet_add (a : List Node) (s : List Nat) (n : Nat) :
    (epsClosed a s →
      ∀ x, x ∈ nsAdd a (closureFuel a) s n ↔ (x ∈ s ∨ epsReach a n x)) ∧
    (∀ f m, m ∈ s → nsAdd a (f + 1) s m = s) ∧
    (s.Nodup → (nsAdd a (closureFuel a) s n).Nodup) := by
  refine ⟨?_, ?_, fun h => nsAdd_nodup a _ s n h⟩
  · intro hs x
    constructor
    · exact nsAdd_sound a _ s n x
    · rintro (h | h)
      · exact nsAdd_subset a _ s n h
      · exact nsAdd_complete a s n hs x h
  · intro f m hm
    rw [nsAdd, if_pos hm]

/-- C9 witness: the amended statement applied to the concrete arena
`cexArena`, with the empty (trivially epsilon-closed) set for the closure
conjunct and the non-closed set `{1}` for the other two. -/
theorem C9_nodeSet_add_witness :
    (epsClosed cexArena [] ∧
      (2 ∈ nsAdd cexArena (closureFuel cexArena) [] 0 ↔
        (2 ∈ ([] : List Nat) ∨ epsReach cexArena 0 2))) ∧
    ((1 : Nat) ∈ [1] ∧ nsAdd cexArena (3 + 1) [1] 1 = [1]) ∧
    ([1] : List Nat).Nodup ∧
      (nsAdd cexArena (closureFuel cexArena) [1] 0).Nodup :=
  ⟨⟨fun i hi => (List.not_mem_nil i hi).elim,
    (C9_nodeSet_add cexArena [] 0).1
      (fun i hi => (List.not_mem_nil i hi).elim) 2⟩,
   ⟨by decide, (C9_nodeSet_add cexArena [1] 1).2.1 3 1 (by decide)⟩,
   by decide, (C9_nodeSet_add cexArena [1] 0).2.2 (by decide)⟩

/-! #### Primitive state operations -/

theorem getN_congr {a a' : List Node} {i : Nat}
    (h : a'.get? i = a.get? i) : getN a' i = getN a i := by
  unfold getN; rw [h]

theorem peekChar_some {st : PState} {c : Char}
    (h : st.input.get? st.pos = some c) : peekChar st = c := by
  unfold peekChar nextChar decodeAt
  rw [h]

theorem peekChar_none {st : PState}
    (h : st.input.get? st.pos = none) : peekChar st = rError := by
  unfold peekChar nextChar decodeAt
  rw [h]

theorem exists_of_peekChar_ne {st : PState} (h : peekChar st ≠ rError) :
    st.input.get? st.pos = some (peekChar st) := by
  cases hg : st.input.get? st.pos with
  | none => exact absurd (peekChar_none hg) h
  | some c => rw [peekChar_some hg]

theorem nextChar_some {st : PState} {c : Char}
    (h : st.input.get? st.pos = some c) :
    nextChar st = (c, { st with pos := st.pos + 1 }) := by
  unfold nextChar decodeAt
  rw [h]

theorem nextChar_none {st : PState}
    (h : st.input.get? st.pos = none) :
    nextChar st = (rError, st) := by
  unfold nextChar decodeAt
  rw [h]
  rfl

theorem addEps_input (st : PState) (i j : Nat) :
    (addEps st i j).input = st.input := rfl

theorem addEps_pos (st : PState) (i j : Nat) :
    (addEps st i j).pos = st.pos := rfl

theorem addEps_len (st : PState) (i j : Nat) :
    (addEps st i j).nodes.length = st.nodes.length := by
  simp [addEps]

theorem addEps_get?_ne (st : PState) (i j k : Nat) (h : i ≠ k) :
    (addEps st i j).nodes.get? k = st.nodes.get? k := by
  simp only [addEps]
  exact List.get?_set_ne _ _ h

theorem setNext_input (st : PState) (i j : Nat) :
    (setNext st i j).input = st.input := rfl

theorem setNext_pos (st : PState) (i j : Nat) :
    (setNext st i j).pos = st.pos := rfl

theorem setNext_len (st : PState) (i j : Nat) :
    (setNext st i j).nodes.length = st.nodes.length := by
  simp [setNext]

theorem setNext_get?_ne (st : PState) (i j k : Nat) (h : i ≠ k) :
    (setNext st i j).nodes.get? k = st.nodes.get? k := by
  simp only [setNext]
  exact List.get?_set_ne _ _ h

theorem wireTo_input (st : PState) (i j : Nat) :
    (wireTo st i j).input = st.input := by
  unfold wireTo; split <;> rfl

theorem wireTo_pos (st : PState) (i j : Nat) :
    (wireTo st i j).pos = st.pos := by
  unfold wireTo; split <;> rfl

theorem wireTo_len (st : PState) (i j : Nat) :
    (wireTo st i j).nodes.length = st.nodes.length := by
  unfold wireTo; split
  · exact setNext_len st i j
  · exact addEps_len st i j

theorem wireTo_get?_ne (st : PState) (i j k : Nat) (h : i ≠ k) :
    (wireTo st i j).nodes.get? k = st.nodes.get? k := by
  unfold wireTo; split
  · exact setNext_get?_ne st i j k h
  · exact addEps_get?_ne st i j k h

theorem getN_set_self (a : List Node) (i : Nat) (nd : Node)
    (h : i < a.length) : getN (a.set i nd) i = nd := by
  unfold getN
  rw [List.get?_set_eq_of_lt nd h]
  rfl

theorem addEps_getN_self (st : PState) (i j : Nat)
    (h : i < st.nodes.length) :
    getN (addEps st i j).nodes i =
      { getN st.nodes i with eps := (getN st.nodes i).eps ++ [j] } := by
  simp only [addEps]
  exact getN_set_self _ _ _ h

theorem setNext_getN_self (st : PState) (i j : Nat)
    (h : i < st.nodes.length) :
    getN (setNext st i j).nodes i =
      { getN st.nodes i with nxt := some j } := by
  simp only [setNext]
  exact getN_set_self _ _ _ h

theorem wireTo_wiredIn (st : PState) (i j : Nat) (h : i < st.nodes.length) :
    wiredIn (wireTo st i j).nodes i j := by
  unfold wireTo wiredIn
  by_cases hm : isMatchKind (getN st.nodes i).kind
  · rw [if_pos hm, setNext_getN_self st i j h]
    simp [hm]
  · rw [if_neg hm, addEps_getN_self st i j h]
    simp [hm]

theorem wireTo_kind (st : PState) (i j k : Nat) :
    (getN (wireTo st i j).nodes k).kind = (getN st.nodes k).kind := by
  by_cases hik : i = k
  · subst hik
    by_cases h : i < st.nodes.length
    · unfold wireTo
      split
      · rw [setNext_getN_self st i j h]
      · rw [addEps_getN_self st i j h]
    · have hset : ∀ nd : Node, st.nodes.set i nd = st.nodes :=
        fun nd => List.set_eq_of_length_le (by omega)
      unfold wireTo setNext addEps
      split <;> simp [hset]
  · rw [getN_congr (wireTo_get?_ne st i j k hik)]

theorem wireTo_eps_mem (st : PState) (i j k p : Nat)
    (h : p ∈ (getN st.nodes k).eps) :
    p ∈ (getN (wireTo st i j).nodes k).eps := by
  by_cases hik : i = k
  · subst hik
    by_cases hl : i < st.nodes.length
    · unfold wireTo
      split
      · rw [setNext_getN_self st i j hl]; exact h
      · rw [addEps_getN_self st i j hl]
        exact List.mem_append_left _ h
    · have hset : ∀ nd : Node, st.nodes.set i nd = st.nodes :=
        fun nd => List.set_eq_of_length_le (by omega)
      unfold wireTo setNext addEps
      split <;> simpa [hset] using h
  · rw [getN_congr (wireTo_get?_ne st i j k hik)]; exact h

theorem wireTo_nxt_pres (st : PState) (i j k : Nat) (hik : i ≠ k) :
    (getN (wireTo st i j).nodes k).nxt = (getN st.nodes k).nxt := by
  rw [getN_congr (wireTo_get?_ne st i j k hik)]

theorem wireTo_eps_pres (st : PState) (i j k : Nat) (hik : i ≠ k) :
    (getN (wireTo st i j).nodes k).eps = (getN st.nodes k).eps := by
  rw [getN_congr (wireTo_get?_ne st i j k hik)]

theorem addEps_self_mem (st : PState) (i j : Nat) (h : i < st.nodes.length) :
    j ∈ (getN (addEps st i j).nodes i).eps := by
  rw [addEps_getN_self st i j h]
  exact List.mem_append_right _ (by simp)

theorem addEps_eps_mem (st : PState) (i j k p : Nat)
    (h : p ∈ (getN st.nodes k).eps) :
    p ∈ (getN (addEps st i j).nodes k).eps := by
  by_cases hik : i = k
  · subst hik
    by_cases hl : i < st.nodes.length
    · rw [addEps_getN_self st i j hl]
      exact List.mem_append_left _ h
    · have hset : ∀ nd : Node, st.nodes.set i nd = st.nodes :=
        fun nd => List.set_eq_of_length_le (by omega)
      unfold addEps
      simpa [hset] using h
  · rw [getN_congr (addEps_get?_ne st i j k hik)]; exact h

theorem getN_append_lt (a : List Node) (x : Node) (i : Nat)
    (h : i < a.length) : getN (a ++ [x]) i = getN a i := by
  unfold getN
  rw [List.get?_append h]

theorem getN_append_self (a : List Node) (x : Node) :
    getN (a ++ [x]) a.length = x := by
  unfold getN
  rw [List.get?_append_right (Nat.le_refl _)]
  simp

theorem get?_append_lt (a : List Node) (x : Node) (i : Nat)
    (h : i < a.length) : (a ++ [x]).get? i = a.get? i :=
  List.get?_append h

theorem alloc_fst (st : PState) (k : NodeKind) :
    (alloc st k).1 = st.nodes.length := rfl

theorem alloc_input (st : PState) (k : NodeKind) :
    ((alloc st k).2).input = st.input := rfl

theorem alloc_pos (st : PState) (k : NodeKind) :
    ((alloc st k).2).pos = st.pos := rfl

theorem alloc_len (st : PState) (k : NodeKind) :
    ((alloc st k).2).nodes.length = st.nodes.length + 1 := by
  simp [alloc]

theorem alloc_get?_lt (st : PState) (k : NodeKind) (i : Nat)
    (h : i < st.nodes.length) :
    ((alloc st k).2).nodes.get? i = st.nodes.get? i :=
  get?_append_lt _ _ _ h

theorem alloc_getN_self (st : PState) (k : NodeKind) :
    getN ((alloc st k).2).nodes st.nodes.length = ⟨k, [], none⟩ :=
  getN_append_self _ _

theorem commonInv_refl (st : PState) : commonInv st st :=
  ⟨rfl, Nat.le_refl _, Nat.le_refl _, fun _ h1 h2 => absurd (Nat.lt_of_le_of_lt h1 h2) (lt_irrefl _)⟩

theorem commonInv_trans {s1 s2 s3 : PState}
    (h12 : commonInv s1 s2) (h23 : commonInv s2 s3) : commonInv s1 s3 := by
  obtain ⟨hi12, hp12, hn12, hc12⟩ := h12
  obtain ⟨hi23, hp23, hn23, hc23⟩ := h23
  refine ⟨hi23.trans hi12, hp12.trans hp23, hn12.trans hn23, ?_⟩
  intro k hk1 hk3
  by_cases hk2 : k < s2.pos
  · exact hc12 k hk1 hk2
  · have := hc23 k (by omega) hk3
    rw [hi12] at this
    exact this

/-! #### Atom parsers and single steps -/

theorem validE_none (m : Nat) : validE none m := fun _ h => nomatch h

theorem commonInv_consume (st : PState) (h : peekChar st ≠ rError) :
    commonInv st { st with pos := st.pos + 1 } := by
  refine ⟨rfl, Nat.le_succ st.pos, Nat.le_refl _, ?_⟩
  intro k hk1 hk2
  have hk2' : k < st.pos + 1 := hk2
  have hk : k = st.pos := by omega
  subst hk
  rw [exists_of_peekChar_ne h]
  intro heq
  exact h (Option.some.inj heq)

theorem commonInv_wireTo {s1 s2 : PState} (i j : Nat)
    (h : commonInv s1 s2) : commonInv s1 (wireTo s2 i j) := by
  obtain ⟨h1, h2, h3, h4⟩ := h
  exact ⟨(wireTo_input s2 i j).trans h1, by rw [wireTo_pos]; exact h2,
    by rw [wireTo_len]; exact h3, by rw [wireTo_pos]; exact h4⟩

theorem termInv_single (st : PState) (nd : Node) (h : peekChar st ≠ rError) :
    termInv st ⟨st.nodes.length, st.nodes.length⟩
      ⟨st.input, st.pos + 1, st.nodes ++ [nd]⟩ := by
  refine ⟨?_, ?_, Nat.le_refl _, by simp, Nat.le_refl _, by simp⟩
  · have := commonInv_consume st h
    exact ⟨rfl, Nat.le_succ st.pos, by simp, this.2.2.2⟩
  · intro i hi _
    exact get?_append_lt st.nodes nd i hi

theorem parseLiteral_spec {st : PState} (h : peekChar st ≠ rError) :
    parseLiteral st = .ok ⟨st.nodes.length, st.nodes.length⟩
      ⟨st.input, st.pos + 1,
        st.nodes ++ [⟨.literal (peekChar st), [], none⟩]⟩ := by
  unfold parseLiteral
  rw [nextChar_some (exists_of_peekChar_ne h)]
  rfl

theorem parseDot_spec {st : PState} (h : peekChar st ≠ rError) :
    parseDot st = .ok ⟨st.nodes.length, st.nodes.length⟩
      ⟨st.input, st.pos + 1, st.nodes ++ [⟨.dot, [], none⟩]⟩ := by
  unfold parseDot
  rw [nextChar_some (exists_of_peekChar_ne h)]
  rfl

theorem parseEscape_termInv {st : PState} (h : peekChar st ≠ rError)
    {fr : Frag} {st' : PState}
    (hok : parseEscape st = .ok fr st') : termInv st fr st' := by
  unfold parseEscape at hok
  rw [nextChar_some (exists_of_peekChar_ne h)] at hok
  set st₁ : PState := { st with pos := st.pos + 1 } with hst₁
  by_cases hc : peekChar st₁ = '?' ∨ peekChar st₁ = '*' ∨ peekChar st₁ = '+' ∨
      peekChar st₁ = '(' ∨ peekChar st₁ = ')' ∨ peekChar st₁ = '|'
  · rw [if_pos hc] at hok
    have hne : peekChar st₁ ≠ rError := by
      rcases hc with h | h | h | h | h | h <;> rw [h] <;> decide
    rw [parseLiteral_spec hne] at hok
    injection hok with h1 h2
    subst h1
    subst h2
    have hI₁ := termInv_single st₁ ⟨.literal (peekChar st₁), [], none⟩ hne
    refine ⟨?_, ?_, ?_, ?_, ?_, ?_⟩
    · exact commonInv_trans (commonInv_consume st h) hI₁.1
    · intro i hi _
      exact hI₁.2.1 i hi (by simp [endIdx])
    · exact hI₁.2.2.1
    · exact hI₁.2.2.2.1
    · exact hI₁.2.2.2.2.1
    · exact hI₁.2.2.2.2.2
  · rw [if_neg hc] at hok
    exact POut.noConfusion hok

theorem parseMeta_eq_qmark {st : PState} (t : Frag) (h : peekChar st = '?') :
    parseMeta st t =
      (wireTo (addEps
          { st with pos := st.pos + 1, nodes := st.nodes ++ [⟨.qmark, [], none⟩] }
          t.start st.nodes.length) t.fin st.nodes.length,
        ⟨t.start, st.nodes.length⟩) := by
  have hne : peekChar st ≠ rError := by rw [h]; decide
  unfold parseMeta
  rw [nextChar_some (exists_of_peekChar_ne hne), h]
  rfl

theorem parseMeta_eq_plus {st : PState} (t : Frag) (h : peekChar st = '+') :
    parseMeta st t =
      (wireTo (addEps
          { st with pos := st.pos + 1, nodes := st.nodes ++ [⟨.plus, [], none⟩] }
          st.nodes.length t.start) t.fin st.nodes.length,
        ⟨t.start, st.nodes.length⟩) := by
  have hne : peekChar st ≠ rError := by rw [h]; decide
  unfold parseMeta
  rw [nextChar_some (exists_of_peekChar_ne hne), h]
  rfl

theorem parseMeta_eq_star {st : PState} (t : Frag) (h : peekChar st = '*') :
    parseMeta st t =
      (wireTo (addEps (addEps
          { st with pos := st.pos + 1, nodes := st.nodes ++ [⟨.star, [], none⟩] }
          st.nodes.length t.start) t.start st.nodes.length) t.fin st.nodes.length,
        ⟨t.start, st.nodes.length⟩) := by
  have hne : peekChar st ≠ rError := by rw [h]; decide
  unfold parseMeta
  rw [nextChar_some (exists_of_peekChar_ne hne), h]
  rfl

theorem parseMeta_spec {st : PState} (t : Frag)
    (h : peekChar st = '?' ∨ peekChar st = '+' ∨ peekChar st = '*') :
    (parseMeta st t).2 = ⟨t.start, st.nodes.length⟩ ∧
    (parseMeta st t).1.input = st.input ∧
    (parseMeta st t).1.pos = st.pos + 1 ∧
    (parseMeta st t).1.nodes.length = st.nodes.length + 1 ∧
    (∀ i, i < st.nodes.length → i ≠ t.start → i ≠ t.fin →
      (parseMeta st t).1.nodes.get? i = st.nodes.get? i) := by
  rcases h with h | h | h
  · rw [parseMeta_eq_qmark t h]
    refine ⟨rfl, ?_, ?_, ?_, ?_⟩
    · rw [wireTo_input, addEps_input]
    · rw [wireTo_pos, addEps_pos]
    · rw [wireTo_len, addEps_len]; simp
    · intro i hi his hif
      rw [wireTo_get?_ne _ _ _ _ (Ne.symm hif),
        addEps_get?_ne _ _ _ _ (Ne.symm his)]
      exact get?_append_lt _ _ _ hi
  · rw [parseMeta_eq_plus t h]
    refine ⟨rfl, ?_, ?_, ?_, ?_⟩
    · rw [wireTo_input, addEps_input]
    · rw [wireTo_pos, addEps_pos]
    · rw [wireTo_len, addEps_len]; simp
    · intro i hi _ hif
      rw [wireTo_get?_ne _ _ _ _ (Ne.symm hif),
        addEps_get?_ne _ _ _ _ (by omega)]
      exact get?_append_lt _ _ _ hi
  · rw [parseMeta_eq_star t h]
    refine ⟨rfl, ?_, ?_, ?_, ?_⟩
    · rw [wireTo_input, addEps_input, addEps_input]
    · rw [wireTo_pos, addEps_pos, addEps_pos]
    · rw [wireTo_len, addEps_len, addEps_len]; simp
    · intro i hi his hif
      rw [wireTo_get?_ne _ _ _ _ (Ne.symm hif),
        addEps_get?_ne _ _ _ _ (Ne.symm his),
        addEps_get?_ne _ _ _ _ (by omega)]
      exact get?_append_lt _ _ _ hi

theorem parseTerm_tail {st st₁ : PState} {t fr : Frag} {st' : PState}
    (hI : termInv st t st₁)
    (hok : (if peekChar st₁ = '?' ∨ peekChar st₁ = '+' ∨ peekChar st₁ = '*' then
        (.ok (parseMeta st₁ t).2 (parseMeta st₁ t).1 : POut Frag)
      else .ok t st₁) = .ok fr st') : termInv st fr st' := by
  obtain ⟨hC, hF, hs1, hs2, hf1, hf2⟩ := hI
  by_cases hq : peekChar st₁ = '?' ∨ peekChar st₁ = '+' ∨ peekChar st₁ = '*'
  · rw [if_pos hq] at hok
    injection hok with h1 h2
    obtain ⟨hm1, hm2, hm3, hm4, hm5⟩ := parseMeta_spec t hq
    subst h1
    subst h2
    obtain ⟨hCi, hCp, hCl, hCc⟩ := hC
    have hqne : peekChar st₁ ≠ rError := by
      rcases hq with h | h | h <;> rw [h] <;> decide
    refine ⟨⟨hm2.trans hCi, by omega, by omega, ?_⟩, ?_, ?_, ?_, ?_, ?_⟩
    · intro k hk1 hk2
      rw [hm3] at hk2
      by_cases hk : k < st₁.pos
      · exact hCc k hk1 hk
      · have hk' : k = st₁.pos := by omega
        subst hk'
        rw [← hCi, exists_of_peekChar_ne hqne]
        intro heq
        exact hqne (Option.some.inj heq)
    · intro i hi hn
      rw [hm5 i (by omega) (by omega) (by omega)]
      exact hF i hi hn
    · rw [hm1]; exact hs1
    · rw [hm1]
      simp only
      omega
    · rw [hm1]
      simp only
      omega
    · rw [hm1]
      simp only
      omega
  · rw [if_neg hq] at hok
    injection hok with h1 h2
    subst h1
    subst h2
    exact ⟨hC, hF, hs1, hs2, hf1, hf2⟩

/-! #### The parser invariant -/

theorem clauseInv_step {e₀ e₂ : Expr} {st stm : PState} {res : Expr}
    {st' : PState}
    (hcmn : commonInv st stm)
    (hframe : ∀ i, i < st.nodes.length → some i ≠ endIdx e₀ →
      stm.nodes.get? i = st.nodes.get? i)
    (hfr : ∃ fr₂, e₂ = some fr₂ ∧ st.nodes.length ≤ fr₂.fin ∧
      (st.nodes.length ≤ fr₂.start ∨
        ∃ f₀, e₀ = some f₀ ∧ fr₂.start = f₀.start))
    (htl : clauseInv e₂ stm res st') :
    clauseInv e₀ st res st' := by
  obtain ⟨fr₂, he₂, hfin₂, hstart₂⟩ := hfr
  obtain ⟨hC2, hF2, hV2, hD2⟩ := htl
  have hlen : st.nodes.length ≤ stm.nodes.length := hcmn.2.2.1
  refine ⟨commonInv_trans hcmn hC2, ?_, hV2, ?_⟩
  · intro i hi hne
    have h1 : stm.nodes.get? i = st.nodes.get? i := hframe i hi hne
    have h2 : st'.nodes.get? i = stm.nodes.get? i := by
      apply hF2 i (Nat.lt_of_lt_of_le hi hlen)
      rw [he₂]
      simp only [endIdx]
      intro hcontra
      have : i = fr₂.fin := Option.some.inj hcontra
      omega
    rw [h2, h1]
  · right
    rcases hD2 with hres | ⟨fr, hfr', hfin, hstart⟩
    · subst hres
      exact ⟨fr₂, he₂, hfin₂, hstart₂⟩
    · refine ⟨fr, hfr', by omega, ?_⟩
      rcases hstart with h | ⟨f₀', hf₀', hfs'⟩
      · exact Or.inl (by omega)
      · rw [he₂] at hf₀'
        have hE : fr₂ = f₀' := Option.some.inj hf₀'
        subst hE
        rw [hfs']
        exact hstart₂

theorem parserInv : ∀ f : Nat,
    (∀ e₀ st res st', validE e₀ st.nodes.length →
      parseClause f e₀ st = .ok res st' → clauseInv e₀ st res st') ∧
    (∀ lhs st res st', validE lhs st.nodes.length → peekChar st ≠ rError →
      parsePipe f lhs st = .ok res st' → pipeInv lhs st res st') ∧
    (∀ st fr st', peekChar st ≠ rError →
      parseTerm f st = .ok fr st' → termInv st fr st') ∧
    (∀ st fr st', peekChar st ≠ rError →
      parseSubexp f st = .ok fr st' → termInv st fr st') := by
  intro f
  induction f with
  | zero =>
    refine ⟨?_, ?_, ?_, ?_⟩
    · intro e₀ st res st' _ hok; exact POut.noConfusion hok
    · intro lhs st res st' _ _ hok; exact POut.noConfusion hok
    · intro st fr st' _ hok; exact POut.noConfusion hok
    · intro st fr st' _ hok; exact POut.noConfusion hok
  | succ f ih =>
    obtain ⟨ihC, ihP, ihT, ihS⟩ := ih
    refine ⟨?_, ?_, ?_, ?_⟩
    · -- parseClause
      intro e₀ st res st' hv hok
      rw [parseClause] at hok
      by_cases h1 : peekChar st = rError ∨ peekChar st = ')'
      · rw [if_pos h1] at hok
        injection hok with ha hb
        subst ha
        subst hb
        exact ⟨commonInv_refl st, fun i _ _ => rfl, hv, Or.inl rfl⟩
      · rw [if_neg h1] at hok
        have hpk : peekChar st ≠ rError := fun hc => h1 (Or.inl hc)
        by_cases h2 : peekChar st = '|'
        · rw [if_pos h2] at hok
          cases hp : parsePipe f e₀ st with
          | ok e₁ st₁ =>
            simp only [hp] at hok
            have hpI := ihP e₀ st e₁ st₁ hv hpk hp
            obtain ⟨hpC, hpF, f₁, hf₁eq, hf₁s, hf₁s2, hf₁f, hf₁f2⟩ := hpI
            have hv₁ : validE e₁ st₁.nodes.length := by
              intro fr hfr
              rw [hf₁eq] at hfr
              have hE : f₁ = fr := Option.some.inj hfr
              subst hE
              exact ⟨hf₁s2, hf₁f2⟩
            exact clauseInv_step hpC hpF
              ⟨f₁, hf₁eq, hf₁f, Or.inl hf₁s⟩ (ihC e₁ st₁ res st' hv₁ hok)
          | err => simp only [hp] at hok; exact POut.noConfusion hok
          | panicked => simp only [hp] at hok; exact POut.noConfusion hok
          | fuelOut => simp only [hp] at hok; exact POut.noConfusion hok
        · rw [if_neg h2] at hok
          cases ht : parseTerm f st with
          | ok t st₁ =>
            simp only [ht] at hok
            have htI := ihT st t st₁ hpk ht
            obtain ⟨htC, htF, hts1, hts2, htf1, htf2⟩ := htI
            cases he₀ : e₀ with
            | none =>
              subst he₀
              simp only [concat] at hok
              refine clauseInv_step htC ?_ ⟨t, rfl, htf1, Or.inl hts1⟩
                (ihC (some t) st₁ res st' ?_ hok)
              · intro i hi _
                exact htF i hi (by simp [endIdx])
              · intro fr hfr
                have hE : t = fr := Option.some.inj hfr
                subst hE
                exact ⟨hts2, htf2⟩
            | some f₀ =>
              subst he₀
              simp only [concat] at hok
              have hvf₀ := hv f₀ rfl
              have hC2 : commonInv st (wireTo st₁ f₀.fin t.start) :=
                commonInv_wireTo _ _ htC
              refine clauseInv_step hC2 ?_
                ⟨⟨f₀.start, t.fin⟩, rfl, htf1, Or.inr ⟨f₀, rfl, rfl⟩⟩
                (ihC (some ⟨f₀.start, t.fin⟩) (wireTo st₁ f₀.fin t.start)
                  res st' ?_ hok)
              · intro i hi hne
                have hif : i ≠ f₀.fin := by
                  intro hcontra
                  apply hne
                  rw [hcontra]
                  rfl
                rw [wireTo_get?_ne st₁ f₀.fin t.start i
                  (fun hcontra => hif hcontra.symm)]
                exact htF i hi (by simp [endIdx])
              · intro fr hfr
                have hE : (⟨f₀.start, t.fin⟩ : Frag) = fr := Option.some.inj hfr
                subst hE
                obtain ⟨hva, hvb⟩ := hvf₀
                have hlen : st.nodes.length ≤ st₁.nodes.length := htC.2.2.1
                rw [wireTo_len]
                constructor
                · show f₀.start < st₁.nodes.length
                  omega
                · exact htf2
          | err => simp only [ht] at hok; exact POut.noConfusion hok
          | panicked => simp only [ht] at hok; exact POut.noConfusion hok
          | fuelOut => simp only [ht] at hok; exact POut.noConfusion hok
    · -- parsePipe
      intro lhs st res st' hv hpk hok
      rw [parsePipe.eq_def] at hok
      rw [nextChar_some (exists_of_peekChar_ne hpk)] at hok
      cases lhs with
      | none => exact POut.noConfusion hok
      | some lf =>
        cases hp : parseClause f none { st with pos := st.pos + 1 } with
        | ok rhsE st₂ =>
          simp only [hp] at hok
          cases rhsE with
          | none => exact POut.noConfusion hok
          | some rf =>
            injection hok with ha hb
            have hcI := ihC none { st with pos := st.pos + 1 } (some rf) st₂
              (validE_none _) hp
            obtain ⟨hcC, hcF, hcV, hcD⟩ := hcI
            have hrf : st.nodes.length ≤ rf.start ∧ st.nodes.length ≤ rf.fin := by
              rcases hcD with h | ⟨fr, hfr, hfin, hstart⟩
              · exact absurd h (by simp)
              · have hE : rf = fr := Option.some.inj hfr
                subst hE
                rcases hstart with h | ⟨f₀, hf₀, _⟩
                · exact ⟨h, hfin⟩
                · exact absurd hf₀ (by simp)
            have hvrf := hcV rf rfl
            have hlen1 : st.nodes.length ≤ st₂.nodes.length := hcC.2.2.1
            -- name the intermediate states
            have hb' : st' =
                (concatNode
                  (concatNode (alloc (addEps st₂ rf.start lf.start) .pipe).2
                    (some rf) st₂.nodes.length).1
                  (some lf) st₂.nodes.length).1 := by
              rw [← hb]
              have : (alloc (addEps st₂ rf.start lf.start) .pipe).1 =
                  st₂.nodes.length := by
                simp [alloc, addEps_len]
              rw [this]
            have ha' : res = some ⟨rf.start, st₂.nodes.length⟩ := by
              rw [← ha]
              have : (alloc (addEps st₂ rf.start lf.start) .pipe).1 =
                  st₂.nodes.length := by
                simp [alloc, addEps_len]
              rw [this]
              rfl
            subst hb'
            subst ha'
            simp only [concatNode]
            constructor
            · -- commonInv
              refine commonInv_trans (commonInv_consume st hpk)
                (commonInv_trans hcC ?_)
              refine ⟨?_, ?_, ?_, ?_⟩
              · rw [wireTo_input, wireTo_input]
                simp [alloc, addEps]
              · rw [wireTo_pos, wireTo_pos]
                simp [alloc, addEps]
              · rw [wireTo_len, wireTo_len]
                simp [alloc, addEps_len]
              · rw [wireTo_pos, wireTo_pos]
                simp only [alloc, addEps]
                intro k h1 h2
                exact absurd (Nat.lt_of_le_of_lt h1 h2) (lt_irrefl _)
            · constructor
              · -- framePres except lf.fin
                intro i hi hne
                have hif : i ≠ lf.fin := by
                  intro hcontra
                  exact hne (by rw [hcontra]; rfl)
                rw [wireTo_get?_ne _ _ _ _ (fun hc => hif hc.symm)]
                rw [wireTo_get?_ne _ _ _ _ (by omega)]
                have : ((alloc (addEps st₂ rf.start lf.start) .pipe).2).nodes =
                    (addEps st₂ rf.start lf.start).nodes ++
                      [⟨.pipe, [], none⟩] := rfl
                rw [this]
                rw [get?_append_lt _ _ _ (by rw [addEps_len]; omega)]
                rw [addEps_get?_ne _ _ _ _ (by omega)]
                exact hcF i hi (by simp [endIdx])
              · -- fresh result fragment
                obtain ⟨hvs, hvf⟩ := hvrf
                have hL : (wireTo (wireTo
                    (alloc (addEps st₂ rf.start lf.start) .pipe).2 rf.fin
                    st₂.nodes.length) lf.fin st₂.nodes.length).nodes.length
                    = st₂.nodes.length + 1 := by
                  rw [wireTo_len, wireTo_len, alloc_len, addEps_len]
                refine ⟨⟨rf.start, st₂.nodes.length⟩, rfl, hrf.1, ?_, ?_, ?_⟩
                · rw [hL]
                  show rf.start < st₂.nodes.length + 1
                  omega
                · show st.nodes.length ≤ st₂.nodes.length
                  omega
                · rw [hL]
                  show st₂.nodes.length < st₂.nodes.length + 1
                  omega
        | err => simp only [hp] at hok; exact POut.noConfusion hok
        | panicked => simp only [hp] at hok; exact POut.noConfusion hok
        | fuelOut => simp only [hp] at hok; exact POut.noConfusion hok
    · -- parseTerm
      intro st fr st' hpk hok
      rw [parseTerm] at hok
      by_cases hq : peekChar st = '?' ∨ peekChar st = '+' ∨ peekChar st = '*'
      · rw [if_pos hq] at hok
        exact POut.noConfusion hok
      · rw [if_neg hq] at hok
        cases hat : (if peekChar st = '(' then parseSubexp f st
            else if peekChar st = '\\' then parseEscape st
            else if peekChar st = '.' then parseDot st
            else parseLiteral st) with
        | ok t st₁ =>
          simp only [hat] at hok
          have hatom : termInv st t st₁ := by
            by_cases hd1 : peekChar st = '('
            · rw [if_pos hd1] at hat
              exact ihS st t st₁ hpk hat
            · rw [if_neg hd1] at hat
              by_cases hd2 : peekChar st = '\\'
              · rw [if_pos hd2] at hat
                exact parseEscape_termInv hpk hat
              · rw [if_neg hd2] at hat
                by_cases hd3 : peekChar st = '.'
                · rw [if_pos hd3] at hat
                  rw [parseDot_spec hpk] at hat
                  injection hat with ha hb
                  subst ha
                  subst hb
                  exact termInv_single st _ hpk
                · rw [if_neg hd3] at hat
                  rw [parseLiteral_spec hpk] at hat
                  injection hat with ha hb
                  subst ha
                  subst hb
                  exact termInv_single st _ hpk
          exact parseTerm_tail hatom hok
        | err => simp only [hat] at hok; exact POut.noConfusion hok
        | panicked => simp only [hat] at hok; exact POut.noConfusion hok
        | fuelOut => simp only [hat] at hok; exact POut.noConfusion hok
    · -- parseSubexp
      intro st fr st' hpk hok
      rw [parseSubexp] at hok
      rw [nextChar_some (exists_of_peekChar_ne hpk)] at hok
      cases hp : parseClause f none { st with pos := st.pos + 1 } with
      | ok e st₂ =>
        simp only [hp] at hok
        have hcI := ihC none { st with pos := st.pos + 1 } e st₂
          (validE_none _) hp
        obtain ⟨hcC, hcF, hcV, hcD⟩ := hcI
        have hlen1 : st.nodes.length ≤ st₂.nodes.length := hcC.2.2.1
        by_cases hr : (nextChar st₂).1 = ')'
        · rw [if_pos hr] at hok
          have hr' : peekChar st₂ = ')' := hr
          have hrne : peekChar st₂ ≠ rError := by rw [hr']; decide
          rw [nextChar_some (exists_of_peekChar_ne hrne)] at hok
          -- the two fresh paren nodes
          have hcmn2 : commonInv st st₂ :=
            commonInv_trans (commonInv_consume st hpk) hcC
          have hcmn3 : commonInv st { st₂ with pos := st₂.pos + 1 } :=
            commonInv_trans hcmn2 (commonInv_consume st₂ hrne)
          cases he : e with
          | none =>
            subst he
            simp only [concatF, concatNode, alloc_fst, alloc_len] at hok
            injection hok with ha hb
            subst ha
            subst hb
            refine ⟨?_, ?_, ?_, ?_, ?_, ?_⟩
            · refine commonInv_trans hcmn3 ⟨?_, ?_, ?_, ?_⟩
              · rw [wireTo_input, alloc_input, alloc_input]
              · rw [wireTo_pos, alloc_pos, alloc_pos]
              · rw [wireTo_len, alloc_len, alloc_len]
                omega
              · rw [wireTo_pos, alloc_pos, alloc_pos]
                intro k h1 h2
                exact absurd (Nat.lt_of_le_of_lt h1 h2) (lt_irrefl _)
            · intro i hi _
              rw [wireTo_get?_ne _ _ _ _ (by show st₂.nodes.length ≠ i; omega)]
              rw [alloc_get?_lt _ _ _
                (by rw [alloc_len]; show i < st₂.nodes.length + 1; omega)]
              rw [alloc_get?_lt _ _ _ (by show i < st₂.nodes.length; omega)]
              exact hcF i hi (by simp [endIdx])
            · show st.nodes.length ≤ st₂.nodes.length
              omega
            · rw [wireTo_len, alloc_len, alloc_len]
              show st₂.nodes.length < st₂.nodes.length + 1 + 1
              omega
            · show st.nodes.length ≤ st₂.nodes.length + 1
              omega
            · rw [wireTo_len, alloc_len, alloc_len]
              show st₂.nodes.length + 1 < st₂.nodes.length + 1 + 1
              omega
          | some g =>
            subst he
            have hg : st.nodes.length ≤ g.fin := by
              rcases hcD with h | ⟨fr₂, hfr₂, hfin₂, _⟩
              · exact absurd h (by simp)
              · have hE : g = fr₂ := Option.some.inj hfr₂
                subst hE
                exact hfin₂
            have hgv := hcV g rfl
            obtain ⟨hgs, hgf⟩ := hgv
            simp only [concatF, concatNode, alloc_fst, alloc_len] at hok
            injection hok with ha hb
            subst ha
            subst hb
            refine ⟨?_, ?_, ?_, ?_, ?_, ?_⟩
            · refine commonInv_trans hcmn3 ⟨?_, ?_, ?_, ?_⟩
              · rw [wireTo_input, wireTo_input, alloc_input, alloc_input]
              · rw [wireTo_pos, wireTo_pos, alloc_pos, alloc_pos]
              · rw [wireTo_len, wireTo_len, alloc_len, alloc_len]
                omega
              · rw [wireTo_pos, wireTo_pos, alloc_pos, alloc_pos]
                intro k h1 h2
                exact absurd (Nat.lt_of_le_of_lt h1 h2) (lt_irrefl _)
            · intro i hi _
              rw [wireTo_get?_ne _ _ _ _ (by omega)]
              rw [wireTo_get?_ne _ _ _ _ (by show st₂.nodes.length ≠ i; omega)]
              rw [alloc_get?_lt _ _ _
                (by rw [alloc_len]; show i < st₂.nodes.length + 1; omega)]
              rw [alloc_get?_lt _ _ _ (by show i < st₂.nodes.length; omega)]
              exact hcF i hi (by simp [endIdx])
            · show st.nodes.length ≤ st₂.nodes.length
              omega
            · rw [wireTo_len, wireTo_len, alloc_len, alloc_len]
              show st₂.nodes.length < st₂.nodes.length + 1 + 1
              omega
            · show st.nodes.length ≤ st₂.nodes.length + 1
              omega
            · rw [wireTo_len, wireTo_len, alloc_len, alloc_len]
              show st₂.nodes.length + 1 < st₂.nodes.length + 1 + 1
              omega
        · rw [if_neg hr] at hok
          exact POut.noConfusion hok
      | err => simp only [hp] at hok; exact POut.noConfusion hok
      | panicked => simp only [hp] at hok; exact POut.noConfusion hok
      | fuelOut => simp only [hp] at hok; exact POut.noConfusion hok

theorem wiredIn_congr {a a' : List Node} {i p : Nat}
    (h : a'.get? i = a.get? i) : wiredIn a' i p ↔ wiredIn a i p := by
  unfold wiredIn
  rw [getN_congr h]

/-- C5: Alternation wiring.  For every successfully parsed alternation
`lhs '|' rhs` (a successful `parsePipe` on a nonempty left fragment), a
fresh Pipe node `p` is allocated and serves as the shared exit: the
returned fragment runs from the right clause's entry to `p`, the left
fragment's exit and the right clause's exit are both wired into `p` (via
the consuming successor for match nodes, an epsilon edge otherwise), and
the right clause's entry gets the epsilon edge to the left clause's entry
that makes both branches reachable from the single combined entry. -/
theorem C5_alternation_wiring (f : Nat) (st : PState) (lf : Frag)
    (res : Expr) (st' : PState)
    (_hvs : lf.start < st.nodes.length) (hvf : lf.fin < st.nodes.length)
    (hpk : peekChar st ≠ rError)
    (hok : parsePipe (f + 1) (some lf) st = .ok res st') :
    ∃ (rhs : Frag) (st₂ : PState),
      parseClause f none { st with pos := st.pos + 1 } = .ok (some rhs) st₂ ∧
      res = some ⟨rhs.start, st₂.nodes.length⟩ ∧
      st.nodes.length ≤ st₂.nodes.length ∧
      st₂.nodes.length < st'.nodes.length ∧
      (getN st'.nodes st₂.nodes.length).kind = .pipe ∧
      (getN st'.nodes st₂.nodes.length).eps = [] ∧
      wiredIn st'.nodes lf.fin st₂.nodes.length ∧
      wiredIn st'.nodes rhs.fin st₂.nodes.length ∧
      lf.start ∈ (getN st'.nodes rhs.start).eps := by
  rw [parsePipe.eq_def] at hok
  rw [nextChar_some (exists_of_peekChar_ne hpk)] at hok
  cases hc : parseClause f none { st with pos := st.pos + 1 } with
  | ok rhsE st₂ =>
    simp only [hc] at hok
    cases rhsE with
    | none => exact POut.noConfusion hok
    | some rf =>
      have hcI := (parserInv f).1 none { st with pos := st.pos + 1 }
        (some rf) st₂ (validE_none _) hc
      obtain ⟨hcC, hcF, hcV, hcD⟩ := hcI
      have hlen1 : st.nodes.length ≤ st₂.nodes.length := hcC.2.2.1
      obtain ⟨hrs, hrfv⟩ := hcV rf rfl
      have hrfresh : st.nodes.length ≤ rf.start ∧ st.nodes.length ≤ rf.fin := by
        rcases hcD with h | ⟨fr₂, hfr₂, hfin₂, hstart₂⟩
        · exact absurd h (by simp)
        · have hE : rf = fr₂ := Option.some.inj hfr₂
          subst hE
          rcases hstart₂ with h | ⟨f₀, hf₀, _⟩
          · exact ⟨h, hfin₂⟩
          · exact absurd hf₀ (by simp)
      simp only [concatNode, alloc_fst, addEps_len] at hok
      injection hok with ha hb
      subst ha
      subst hb
      refine ⟨rf, st₂, rfl, rfl, hlen1, ?_, ?_, ?_, ?_, ?_, ?_⟩
      · rw [wireTo_len, wireTo_len, alloc_len, addEps_len]
        omega
      · have e1 := getN_congr
          (wireTo_get?_ne
            (wireTo (alloc (addEps st₂ rf.start lf.start) .pipe).2 rf.fin
              st₂.nodes.length)
            lf.fin st₂.nodes.length st₂.nodes.length (by omega))
        rw [e1]
        have e2 := getN_congr
          (wireTo_get?_ne (alloc (addEps st₂ rf.start lf.start) .pipe).2
            rf.fin st₂.nodes.length st₂.nodes.length (by omega))
        rw [e2]
        have hA : getN ((alloc (addEps st₂ rf.start lf.start) .pipe).2).nodes
            st₂.nodes.length = ⟨.pipe, [], none⟩ := by
          rw [← addEps_len st₂ rf.start lf.start]
          exact alloc_getN_self _ _
        rw [hA]
      · have e1 := getN_congr
          (wireTo_get?_ne
            (wireTo (alloc (addEps st₂ rf.start lf.start) .pipe).2 rf.fin
              st₂.nodes.length)
            lf.fin st₂.nodes.length st₂.nodes.length (by omega))
        rw [e1]
        have e2 := getN_congr
          (wireTo_get?_ne (alloc (addEps st₂ rf.start lf.start) .pipe).2
            rf.fin st₂.nodes.length st₂.nodes.length (by omega))
        rw [e2]
        have hA : getN ((alloc (addEps st₂ rf.start lf.start) .pipe).2).nodes
            st₂.nodes.length = ⟨.pipe, [], none⟩ := by
          rw [← addEps_len st₂ rf.start lf.start]
          exact alloc_getN_self _ _
        rw [hA]
      · apply wireTo_wiredIn
        rw [wireTo_len, alloc_len, addEps_len]
        omega
      · have hw : wiredIn (wireTo
            (alloc (addEps st₂ rf.start lf.start) .pipe).2 rf.fin
            st₂.nodes.length).nodes rf.fin st₂.nodes.length := by
          apply wireTo_wiredIn
          rw [alloc_len, addEps_len]
          omega
        exact (wiredIn_congr
          (wireTo_get?_ne _ lf.fin st₂.nodes.length rf.fin (by omega))).2 hw
      · apply wireTo_eps_mem
        apply wireTo_eps_mem
        have m1 : lf.start ∈
            (getN (addEps st₂ rf.start lf.start).nodes rf.start).eps :=
          addEps_self_mem st₂ rf.start lf.start hrs
        have e3 := getN_congr
          (alloc_get?_lt (addEps st₂ rf.start lf.start) .pipe rf.start
            (by rw [addEps_len]; omega))
        rw [e3]
        exact m1
  | err => simp only [hc] at hok; exact POut.noConfusion hok
  | panicked => simp only [hc] at hok; exact POut.noConfusion hok
  | fuelOut => simp only [hc] at hok; exact POut.noConfusion hok

/-- C5 witness: the wiring facts instantiated on parsing the alternation
tail of the pattern `a|b`, with the left fragment being the literal node
for `a`. -/
theorem C5_alternation_wiring_witness :
    (0 < 1) ∧
    peekChar ⟨['a', '|', 'b'], 1, [⟨.literal 'a', [], none⟩]⟩ ≠ rError ∧
    (∃ (rhs : Frag) (st₂ : PState),
      parseClause 11 none
        ⟨['a', '|', 'b'], 2, [⟨.literal 'a', [], none⟩]⟩ =
          .ok (some rhs) st₂ ∧
      some ⟨1, 2⟩ = some (⟨rhs.start, st₂.nodes.length⟩ : Frag) ∧
      1 ≤ st₂.nodes.length ∧
      st₂.nodes.length <
        (⟨['a', '|', 'b'], 3,
          [⟨.literal 'a', [], some 2⟩, ⟨.literal 'b', [0], some 2⟩,
            ⟨.pipe, [], none⟩]⟩ : PState).nodes.length ∧
      (getN [⟨.literal 'a', [], some 2⟩, ⟨.literal 'b', [0], some 2⟩,
          ⟨.pipe, [], none⟩] st₂.nodes.length).kind = .pipe ∧
      (getN [⟨.literal 'a', [], some 2⟩, ⟨.literal 'b', [0], some 2⟩,
          ⟨.pipe, [], none⟩] st₂.nodes.length).eps = [] ∧
      wiredIn [⟨.literal 'a', [], some 2⟩, ⟨.literal 'b', [0], some 2⟩,
          ⟨.pipe, [], none⟩] 0 st₂.nodes.length ∧
      wiredIn [⟨.literal 'a', [], some 2⟩, ⟨.literal 'b', [0], some 2⟩,
          ⟨.pipe, [], none⟩] rhs.fin st₂.nodes.length ∧
      0 ∈ (getN [⟨.literal 'a', [], some 2⟩, ⟨.literal 'b', [0], some 2⟩,
          ⟨.pipe, [], none⟩] rhs.start).eps) :=
  ⟨Nat.zero_lt_one, by decide,
    C5_alternation_wiring 11
      ⟨['a', '|', 'b'], 1, [⟨.literal 'a', [], none⟩]⟩ ⟨0, 0⟩
      (some ⟨1, 2⟩)
      ⟨['a', '|', 'b'], 3,
        [⟨.literal 'a', [], some 2⟩, ⟨.literal 'b', [0], some 2⟩,
          ⟨.pipe, [], none⟩]⟩
      (by decide) (by decide) (by decide) (by decide)⟩

theorem compile_ok_no_rError (p : List Char) (r : Regexp)
    (hok : compile p = .ok r) : rError ∉ p := by
  intro hmem
  unfold compile at hok
  cases hp : parse p with
  | ok fr st =>
    unfold parse at hp
    cases hc : parseClause (parseFuel p) none ⟨p, 0, []⟩ with
    | ok e st₁ =>
      simp only [hc] at hp
      by_cases hpos : st₁.pos ≠ p.length
      · rw [if_pos hpos] at hp
        exact POut.noConfusion hp
      · rw [if_neg hpos] at hp
        push_neg at hpos
        have hI := (parserInv (parseFuel p)).1 none ⟨p, 0, []⟩ e st₁
          (validE_none _) hc
        obtain ⟨⟨hin, hposle, hlen, hcons⟩, _, _, _⟩ := hI
        obtain ⟨k, hk⟩ := List.get?_of_mem hmem
        have hklt : k < p.length := by
          rcases List.get?_eq_some.1 hk with ⟨h, _⟩
          exact h
        exact hcons k (Nat.zero_le k) (by omega) hk
    | err => simp only [hc] at hp; exact POut.noConfusion hp
    | panicked => simp only [hc] at hp; exact POut.noConfusion hp
    | fuelOut => simp only [hc] at hp; exact POut.noConfusion hp
  | err => simp only [hp] at hok; exact CRes.noConfusion hok
  | panicked => simp only [hp] at hok; exact CRes.noConfusion hok
  | fuelOut => simp only [hp] at hok; exact CRes.noConfusion hok

/-- C10 counterexample: the pattern `a|` followed by a literal U+FFFD
contains the sentinel code point, yet `Compile` does not return a compile
error on it: the sentinel makes the right side of the alternation look
empty, and the source then calls `addEpsilon` through a nil interface — a
runtime panic, not an error. -/
theorem C10_counterexample :
    rError ∈ ['a', '|', rError] ∧
    compile ['a', '|', rError] ≠ .err ∧
    compile ['a', '|', rError] = .panicked := by
  refine ⟨by decide, ?_, ?_⟩ <;> decide

/-- C10 (amended): because the scanner uses U+FFFD as its end-of-input
sentinel, a pattern containing a literal U+FFFD (or an invalid byte
sequence, which decodes to the same rune) never compiles successfully: the
scanner stops scanning at that point and compilation fails — with a
compile error in general, though a panic (not an error) occurs when the
sentinel leaves an alternation's right side empty.  Such a code point can
never be compiled as an ordinary literal. -/
theorem C10_sentinel_never_compiles :
    (∀ p r, rError ∈ p → compile p ≠ .ok r) ∧
    compile [rError] = .err ∧ compile ['a', rError] = .err := by
  refine ⟨?_, by decide, by decide⟩
  intro p r hmem hok
  exact compile_ok_no_rError p r hok hmem

/-- C10 witness: the amended statement applied to the one-character
sentinel pattern. -/
theorem C10_sentinel_never_compiles_witness :
    rError ∈ [rError] ∧ compile [rError] ≠ .ok emptyRe :=
  ⟨by decide, C10_sentinel_never_compiles.1 [rError] emptyRe (by decide)⟩

/-! #### Metacharacter-free patterns compile to literal chains -/

theorem openChain_length (p : List Char) (k : Nat) :
    (openChain p k).length = k := by
  simp [openChain]

theorem openChain_get? {p : List Char} {k i : Nat} (h : i < k) :
    (openChain p k).get? i =
      some ⟨.literal (charAt p i), [],
        if i + 1 = k then none else some (i + 1)⟩ := by
  unfold openChain
  rw [List.get?_map, List.get?_range h]
  rfl

theorem openChain_getN {p : List Char} {k i : Nat} (h : i < k) :
    getN (openChain p k) i =
      ⟨.literal (charAt p i), [], if i + 1 = k then none else some (i + 1)⟩ := by
  unfold getN
  rw [openChain_get? h]
  rfl

theorem openChain_snoc_zero (p : List Char) :
    openChain p 0 ++ [⟨.literal (charAt p 0), [], none⟩] = openChain p 1 := rfl

theorem openChain_snoc_set (p : List Char) (k : Nat) (hk : 1 ≤ k) :
    (openChain p k ++ [(⟨.literal (charAt p k), [], none⟩ : Node)]).set (k - 1)
      (⟨.literal (charAt p (k - 1)), [], some k⟩ : Node) = openChain p (k + 1) := by
  apply List.ext_get?
  intro i
  have hlen : (openChain p k ++
      [(⟨.literal (charAt p k), [], none⟩ : Node)]).length = k + 1 := by
    simp [openChain_length]
  by_cases h1 : i = k - 1
  · subst h1
    rw [List.get?_set_eq]
    rw [get?_append_lt _ _ _ (by rw [openChain_length]; omega)]
    rw [openChain_get? (show k - 1 < k by omega),
      openChain_get? (show k - 1 < k + 1 by omega)]
    rw [if_neg (show ¬((k - 1) + 1 = k + 1) by omega)]
    have hE : (k - 1) + 1 = k := by omega
    rw [hE]
    rfl
  · by_cases h2 : i < k
    · rw [List.get?_set_ne _ _ (fun hc => h1 hc.symm)]
      rw [get?_append_lt _ _ _ (by rw [openChain_length]; exact h2)]
      rw [openChain_get? h2, openChain_get? (show i < k + 1 by omega)]
      rw [if_neg (by omega), if_neg (by omega)]
    · by_cases h3 : i = k
      · rw [List.get?_set_ne _ _ (by omega)]
        rw [h3]
        rw [List.get?_append_right (by rw [openChain_length])]
        have hE : k - (openChain p k).length = 0 := by
          rw [openChain_length]
          omega
        rw [hE]
        rw [openChain_get? (show k < k + 1 by omega)]
        rw [if_pos rfl]
        rfl
      · rw [List.get?_set_ne _ _ (by omega)]
        rw [List.get?_eq_none.2 (by rw [hlen]; omega),
          List.get?_eq_none.2 (by rw [openChain_length]; omega)]

theorem fullChain_length (p : List Char) :
    (fullChain p).length = p.length + 1 := by
  simp [fullChain]

theorem fullChain_get?_lt {p : List Char} {i : Nat} (h : i < p.length) :
    (fullChain p).get? i =
      some ⟨.literal (charAt p i), [], some (i + 1)⟩ := by
  unfold fullChain
  rw [get?_append_lt _ _ _ (by simpa using h)]
  rw [List.get?_map, List.get?_range h]
  rfl

theorem fullChain_get?_len (p : List Char) :
    (fullChain p).get? p.length = some ⟨.terminal, [], none⟩ := by
  unfold fullChain
  rw [List.get?_append_right (by simp)]
  simp

theorem fullChain_getN_lt {p : List Char} {i : Nat} (h : i < p.length) :
    getN (fullChain p) i = ⟨.literal (charAt p i), [], some (i + 1)⟩ := by
  unfold getN
  rw [fullChain_get?_lt h]
  rfl

theorem fullChain_getN_len (p : List Char) :
    getN (fullChain p) p.length = ⟨.terminal, [], none⟩ := by
  unfold getN
  rw [fullChain_get?_len]
  rfl

theorem fullChain_eps (p : List Char) (i : Nat) :
    (getN (fullChain p) i).eps = [] := by
  by_cases h1 : i < p.length
  · rw [fullChain_getN_lt h1]
  · by_cases h2 : i = p.length
    · subst h2
      rw [fullChain_getN_len]
    · unfold getN
      rw [List.get?_eq_none.2 (by rw [fullChain_length]; omega)]
      rfl

theorem fullChain_eq_set (p : List Char) (hk : 1 ≤ p.length) :
    (openChain p p.length ++ [(⟨.terminal, [], none⟩ : Node)]).set (p.length - 1)
      (⟨.literal (charAt p (p.length - 1)), [], some p.length⟩ : Node) = fullChain p := by
  apply List.ext_get?
  intro i
  have hlen : (openChain p p.length ++
      [(⟨.terminal, [], none⟩ : Node)]).length = p.length + 1 := by
    simp [openChain_length]
  by_cases h1 : i = p.length - 1
  · subst h1
    rw [List.get?_set_eq]
    rw [get?_append_lt _ _ _ (by rw [openChain_length]; omega)]
    rw [openChain_get? (show p.length - 1 < p.length by omega)]
    rw [fullChain_get?_lt (show p.length - 1 < p.length by omega)]
    have hE : (p.length - 1) + 1 = p.length := by omega
    rw [hE]
    rfl
  · by_cases h2 : i < p.length
    · rw [List.get?_set_ne _ _ (fun hc => h1 hc.symm)]
      rw [get?_append_lt _ _ _ (by rw [openChain_length]; exact h2)]
      rw [openChain_get? h2, fullChain_get?_lt h2]
      rw [if_neg (by omega)]
    · by_cases h3 : i = p.length
      · rw [List.get?_set_ne _ _ (by omega)]
        rw [h3]
        rw [List.get?_append_right (by rw [openChain_length])]
        have hE : p.length - (openChain p p.length).length = 0 := by
          rw [openChain_length]
          omega
        rw [hE, fullChain_get?_len]
        rfl
      · rw [List.get?_set_ne _ _ (by omega)]
        rw [List.get?_eq_none.2 (by rw [hlen]; omega),
          List.get?_eq_none.2 (by rw [fullChain_length]; omega)]

theorem chainClause (p : List Char) (hp : ∀ c ∈ p, plainChar c) :
    ∀ (m k fuel : Nat), k + m = p.length → m + 1 ≤ fuel →
      parseClause fuel (fragAt k) ⟨p, k, openChain p k⟩ =
        .ok (fragAt p.length) ⟨p, p.length, openChain p p.length⟩ := by
  intro m
  induction m with
  | zero =>
    intro k fuel hk hf
    have hkE : k = p.length := by omega
    subst hkE
    obtain ⟨f, rfl⟩ : ∃ f, fuel = f + 1 := ⟨fuel - 1, by omega⟩
    have hpeek : peekChar ⟨p, p.length, openChain p p.length⟩ = rError :=
      peekChar_none (List.get?_eq_none.2 (Nat.le_refl _))
    rw [parseClause]
    rw [if_pos (Or.inl hpeek)]
  | succ m ihm =>
    intro k fuel hk hf
    have hklt : k < p.length := by omega
    obtain ⟨f, rfl⟩ : ∃ f, fuel = f + 1 := ⟨fuel - 1, by omega⟩
    obtain ⟨f', rfl⟩ : ∃ f', f = f' + 1 := ⟨f - 1, by omega⟩
    obtain ⟨c, hgc⟩ : ∃ c, p.get? k = some c := by
      cases hg : p.get? k with
      | none => exact absurd (List.get?_eq_none.1 hg) (by omega)
      | some c => exact ⟨c, rfl⟩
    have hcc : charAt p k = c := by unfold charAt; rw [hgc]; rfl
    subst hcc
    obtain ⟨hnm, hnerr⟩ : plainChar (charAt p k) := hp _ (List.get?_mem hgc)
    obtain ⟨hq1, hq2, hq3, hlp, hrp, hpp, hbs, hdd⟩ :
        charAt p k ≠ '?' ∧ charAt p k ≠ '+' ∧ charAt p k ≠ '*' ∧
        charAt p k ≠ '(' ∧ charAt p k ≠ ')' ∧ charAt p k ≠ '|' ∧
        charAt p k ≠ '\\' ∧ charAt p k ≠ '.' := by
      simpa [metaChars] using hnm
    have hpeek : peekChar ⟨p, k, openChain p k⟩ = charAt p k :=
      peekChar_some hgc
    have hterm : parseTerm (f' + 1) ⟨p, k, openChain p k⟩ =
        .ok ⟨k, k⟩ ⟨p, k + 1,
          openChain p k ++ [(⟨.literal (charAt p k), [], none⟩ : Node)]⟩ := by
      rw [parseTerm]
      rw [hpeek]
      rw [if_neg (by simp [hq1, hq2, hq3])]
      rw [if_neg hlp, if_neg hbs, if_neg hdd]
      rw [parseLiteral_spec (show peekChar ⟨p, k, openChain p k⟩ ≠ rError from
        by rw [hpeek]; exact hnerr)]
      rw [hpeek]
      simp only []
      have hnx : ¬(peekChar ⟨p, k + 1,
          openChain p k ++ [(⟨.literal (charAt p k), [], none⟩ : Node)]⟩ = '?' ∨
          peekChar ⟨p, k + 1,
          openChain p k ++ [(⟨.literal (charAt p k), [], none⟩ : Node)]⟩ = '+' ∨
          peekChar ⟨p, k + 1,
          openChain p k ++ [(⟨.literal (charAt p k), [], none⟩ : Node)]⟩ = '*') := by
        rcases Nat.lt_or_ge (k + 1) p.length with hlt | hge
        · obtain ⟨c₂, hg₂⟩ : ∃ c₂, p.get? (k + 1) = some c₂ := by
            cases hg : p.get? (k + 1) with
            | none => exact absurd (List.get?_eq_none.1 hg) (by omega)
            | some c₂ => exact ⟨c₂, rfl⟩
          have hpk₂ : peekChar ⟨p, k + 1,
              openChain p k ++ [(⟨.literal (charAt p k), [], none⟩ : Node)]⟩ = c₂ :=
            peekChar_some hg₂
          obtain ⟨hn₂, _⟩ : plainChar c₂ := hp _ (List.get?_mem hg₂)
          rw [hpk₂]
          obtain ⟨ha1, ha2, ha3, _, _, _, _, _⟩ :
              c₂ ≠ '?' ∧ c₂ ≠ '+' ∧ c₂ ≠ '*' ∧ c₂ ≠ '(' ∧ c₂ ≠ ')' ∧
              c₂ ≠ '|' ∧ c₂ ≠ '\\' ∧ c₂ ≠ '.' := by
            simpa [metaChars] using hn₂
          simp [ha1, ha2, ha3]
        · have hpk₂ : peekChar ⟨p, k + 1,
              openChain p k ++ [(⟨.literal (charAt p k), [], none⟩ : Node)]⟩ =
              rError := peekChar_none (List.get?_eq_none.2
                (show p.length ≤ k + 1 by omega))
          rw [hpk₂]
          decide
      rw [if_neg hnx]
      rw [openChain_length]
    rw [parseClause]
    rw [if_neg (show ¬(peekChar ⟨p, k, openChain p k⟩ = rError ∨
        peekChar ⟨p, k, openChain p k⟩ = ')') from
      by rw [hpeek]; simp [hnerr, hrp])]
    rw [if_neg (show ¬peekChar ⟨p, k, openChain p k⟩ = '|' from
      by rw [hpeek]; exact hpp)]
    rw [hterm]
    simp only []
    by_cases hk0 : k = 0
    · subst hk0
      rw [show fragAt 0 = none from rfl]
      simp only [concat]
      rw [openChain_snoc_zero]
      rw [show (some ⟨0, 0⟩ : Expr) = fragAt 1 from rfl]
      exact ihm 1 (f' + 1) (by omega) (by omega)
    · rw [show fragAt k = some ⟨0, k - 1⟩ from by unfold fragAt; rw [if_neg hk0]]
      simp only [concat]
      have hwire : wireTo ⟨p, k + 1,
          openChain p k ++ [(⟨.literal (charAt p k), [], none⟩ : Node)]⟩
          (k - 1) k = ⟨p, k + 1, openChain p (k + 1)⟩ := by
        have hgn : getN (openChain p k ++
            [(⟨.literal (charAt p k), [], none⟩ : Node)]) (k - 1) =
            ⟨.literal (charAt p (k - 1)), [], none⟩ := by
          rw [getN_append_lt _ _ _ (by rw [openChain_length]; omega)]
          rw [openChain_getN (show k - 1 < k by omega)]
          rw [if_pos (by omega)]
        unfold wireTo
        rw [hgn]
        rw [if_pos (show isMatchKind
          ((⟨.literal (charAt p (k - 1)), [], none⟩ : Node)).kind = true
          from rfl)]
        unfold setNext
        rw [hgn]
        show (⟨p, k + 1, (openChain p k ++
          [(⟨.literal (charAt p k), [], none⟩ : Node)]).set (k - 1)
            ⟨.literal (charAt p (k - 1)), [], some k⟩⟩ : PState) =
          ⟨p, k + 1, openChain p (k + 1)⟩
        rw [openChain_snoc_set p k (by omega)]
      rw [hwire]
      rw [show (some ⟨0, k⟩ : Expr) = fragAt (k + 1) from
        by unfold fragAt; rw [if_neg (Nat.succ_ne_zero k)]; rfl]
      exact ihm (k + 1) (f' + 1) (by omega) (by omega)

theorem chainParseAux (p : List Char) (hp : ∀ c ∈ p, plainChar c) :
    parse p = .ok ⟨0, p.length⟩ ⟨p, p.length, fullChain p⟩ := by
  by_cases hp0 : p.length = 0
  · have hpnil : p = [] := List.length_eq_zero.1 hp0
    subst hpnil
    rfl
  · unfold parse
    have hcl := chainClause p hp p.length 0 (parseFuel p) (by omega)
      (by unfold parseFuel; omega)
    rw [show fragAt 0 = none from rfl] at hcl
    rw [show openChain p 0 = ([] : List Node) from rfl] at hcl
    simp only [hcl]
    rw [if_neg (show ¬((⟨p, p.length, openChain p p.length⟩ : PState).pos ≠
      p.length) from fun h => h rfl)]
    rw [show fragAt p.length = some ⟨0, p.length - 1⟩ from
      by unfold fragAt; rw [if_neg hp0]]
    simp only [concatNode]
    rw [alloc_fst]
    simp only []
    rw [openChain_length]
    have hwire : wireTo
        (alloc ⟨p, p.length, openChain p p.length⟩ NodeKind.terminal).2
        (p.length - 1) p.length = ⟨p, p.length, fullChain p⟩ := by
      have hgn : getN ((alloc ⟨p, p.length, openChain p p.length⟩
          NodeKind.terminal).2).nodes (p.length - 1) =
          ⟨.literal (charAt p (p.length - 1)), [], none⟩ := by
        show getN (openChain p p.length ++ [(⟨.terminal, [], none⟩ : Node)])
          (p.length - 1) = _
        rw [getN_append_lt _ _ _ (by rw [openChain_length]; omega)]
        rw [openChain_getN (show p.length - 1 < p.length by omega)]
        rw [if_pos (by omega)]
      unfold wireTo
      rw [hgn]
      rw [if_pos (show isMatchKind
        ((⟨.literal (charAt p (p.length - 1)), [], none⟩ : Node)).kind = true
        from rfl)]
      unfold setNext
      rw [hgn]
      show (⟨p, p.length, (openChain p p.length ++
        [(⟨.terminal, [], none⟩ : Node)]).set (p.length - 1)
          ⟨.literal (charAt p (p.length - 1)), [], some p.length⟩⟩ : PState) =
        ⟨p, p.length, fullChain p⟩
      rw [fullChain_eq_set p (by omega)]
    rw [hwire]

theorem chainParse (p : List Char) (hp : ∀ c ∈ p, plainChar c) :
    compile p = .ok (chainRe p) := by
  unfold compile
  rw [chainParseAux p hp]
  rfl

theorem nsAdd_noeps (a : List Node) (h : ∀ i, (getN a i).eps = [])
    (f : Nat) (s : List Nat) (n : Nat) :
    nsAdd a (f + 1) s n = if n ∈ s then s else s ++ [n] := by
  rw [nsAdd]
  by_cases hn : n ∈ s
  · rw [if_pos hn, if_pos hn]
  · rw [if_neg hn, if_neg hn, h n]
    rfl

theorem chainRun (p : List Char) :
    ∀ (d k : Nat) (rest : List Char), k ≤ p.length → p.length - k = d →
      matchRun (fullChain p) p.length [k] (p.drop k ++ rest) =
        matchRun (fullChain p) p.length [p.length] rest := by
  intro d
  induction d with
  | zero =>
    intro k rest hk hd
    have hkE : k = p.length := by omega
    subst hkE
    rw [List.drop_length]
    rfl
  | succ d ihd =>
    intro k rest hk hd
    have hklt : k < p.length := by omega
    obtain ⟨c, hgc⟩ : ∃ c, p.get? k = some c := by
      cases hg : p.get? k with
      | none => exact absurd (List.get?_eq_none.1 hg) (by omega)
      | some c => exact ⟨c, rfl⟩
    have hcc : charAt p k = c := by unfold charAt; rw [hgc]; rfl
    have hdrop : p.drop k = c :: p.drop (k + 1) := by
      rw [List.drop_eq_get_cons hklt]
      rcases List.get?_eq_some.1 hgc with ⟨h1, h2⟩
      rw [show p.get ⟨k, hklt⟩ = c from h2]
    rw [hdrop]
    show (if matchStep (fullChain p) [k] c = [] then false
      else matchRun (fullChain p) p.length (matchStep (fullChain p) [k] c)
        (List.drop (k + 1) p ++ rest)) =
      matchRun (fullChain p) p.length [p.length] rest
    have hstep : matchStep (fullChain p) [k] c = [k + 1] := by
      show stepInto (fullChain p) c [] k = [k + 1]
      unfold stepInto
      rw [fullChain_getN_lt hklt]
      simp only []
      have hm : nodeMatches ⟨.literal (charAt p k), [], some (k + 1)⟩ c
          = true := by
        show (c == charAt p k) = true
        rw [hcc]
        exact beq_self_eq_true c
      rw [hm]
      simp only [if_true]
      rw [show closureFuel (fullChain p) =
        ((fullChain p).length + 1) + 1 from rfl]
      rw [nsAdd_noeps (fullChain p) (fullChain_eps p)]
      rw [if_neg (List.not_mem_nil (k + 1))]
      rfl
    rw [hstep]
    rw [if_neg (by simp)]
    exact ihd (k + 1) rest (by omega) (by omega)

/-- C1: For every pattern containing no metacharacters that compiles
successfully, `MatchString` returns true on the input equal to the pattern
itself and false on the pattern followed by `x` — matching is whole-string,
never a substring search. -/
theorem C1_plain_whole_string (p : List Char) (r : Regexp)
    (hnm : ∀ c ∈ p, c ∉ metaChars) (hok : compile p = .ok r) :
    matchString r p = true ∧ matchString r (p ++ ['x']) = false := by
  have hnf := compile_ok_no_rError p r hok
  have hpl : ∀ c ∈ p, plainChar c :=
    fun c hc => ⟨hnm c hc, fun he => hnf (he ▸ hc)⟩
  have hcp := chainParse p hpl
  rw [hok] at hcp
  have hr : r = chainRe p := CRes.ok.inj hcp
  subst hr
  have hinit : nsAdd (fullChain p) (closureFuel (fullChain p)) [] 0 = [0] := by
    rw [show closureFuel (fullChain p) = ((fullChain p).length + 1) + 1
      from rfl]
    rw [nsAdd_noeps (fullChain p) (fullChain_eps p)]
    rw [if_neg (List.not_mem_nil 0)]
    rfl
  have hterm0 : matchRun (fullChain p) p.length [p.length] [] = true := by
    show ([p.length].contains p.length) = true
    simp [List.contains]
  constructor
  · show matchRun (fullChain p) p.length
      (nsAdd (fullChain p) (closureFuel (fullChain p)) [] 0) p = true
    rw [hinit]
    have hrun := chainRun p p.length 0 [] (Nat.zero_le _) (by omega)
    rw [List.drop_zero, List.append_nil] at hrun
    rw [hrun]
    exact hterm0
  · show matchRun (fullChain p) p.length
      (nsAdd (fullChain p) (closureFuel (fullChain p)) [] 0) (p ++ ['x'])
      = false
    rw [hinit]
    have hrun := chainRun p p.length 0 ['x'] (Nat.zero_le _) (by omega)
    rw [List.drop_zero] at hrun
    rw [hrun]
    show (if matchStep (fullChain p) [p.length] 'x' = [] then false
      else matchRun (fullChain p) p.length
        (matchStep (fullChain p) [p.length] 'x') []) = false
    have hstep : matchStep (fullChain p) [p.length] 'x' = [] := by
      show stepInto (fullChain p) 'x' [] p.length = []
      unfold stepInto
      rw [fullChain_getN_len]
      rfl
    rw [hstep]
    rw [if_pos rfl]

/-- C1 witness: the concrete pattern `ab`. -/
theorem C1_plain_whole_string_witness :
    (∀ c ∈ ['a', 'b'], c ∉ metaChars) ∧
    compile ['a', 'b'] = .ok (chainRe ['a', 'b']) ∧
    (matchString (chainRe ['a', 'b']) ['a', 'b'] = true ∧
      matchString (chainRe ['a', 'b']) (['a', 'b'] ++ ['x']) = false) :=
  ⟨by decide, by decide,
    C1_plain_whole_string ['a', 'b'] (chainRe ['a', 'b'])
      (by decide) (by decide)⟩

/-! #### The plus quantifier over a single literal -/

theorem plusCompile (c : Char) (hc : plainChar c) :
    compile [c, '+'] = .ok (plusRe c) := by
  obtain ⟨hnm, hnerr⟩ := hc
  obtain ⟨hq1, hq2, hq3, hlp, hrp, hpp, hbs, hdd⟩ :
      c ≠ '?' ∧ c ≠ '+' ∧ c ≠ '*' ∧ c ≠ '(' ∧ c ≠ ')' ∧ c ≠ '|' ∧
      c ≠ '\\' ∧ c ≠ '.' := by
    simpa [metaChars] using hnm
  have h0 : peekChar ⟨[c, '+'], 0, []⟩ = c := peekChar_some rfl
  have h1 : peekChar ⟨[c, '+'], 1, [⟨.literal c, [], none⟩]⟩ = '+' :=
    peekChar_some rfl
  have hterm : parseTerm 23 ⟨[c, '+'], 0, []⟩ =
      .ok ⟨0, 1⟩ ⟨[c, '+'], 2,
        [⟨.literal c, [], some 1⟩, ⟨.plus, [0], none⟩]⟩ := by
    rw [show (23 : Nat) = 22 + 1 from rfl]
    rw [parseTerm]
    rw [if_neg (show ¬(peekChar ⟨[c, '+'], 0, []⟩ = '?' ∨
        peekChar ⟨[c, '+'], 0, []⟩ = '+' ∨
        peekChar ⟨[c, '+'], 0, []⟩ = '*') from
      by rw [h0]; simp [hq1, hq2, hq3])]
    rw [if_neg (show ¬peekChar ⟨[c, '+'], 0, []⟩ = '(' from
        by rw [h0]; exact hlp),
      if_neg (show ¬peekChar ⟨[c, '+'], 0, []⟩ = '\\' from
        by rw [h0]; exact hbs),
      if_neg (show ¬peekChar ⟨[c, '+'], 0, []⟩ = '.' from
        by rw [h0]; exact hdd)]
    rw [parseLiteral_spec (show peekChar ⟨[c, '+'], 0, []⟩ ≠ rError from
      by rw [h0]; exact hnerr)]
    rw [h0]
    simp only [List.nil_append, Nat.zero_add]
    rw [if_pos (Or.inr (Or.inl h1))]
    rw [parseMeta_eq_plus _ h1]
    rfl
  unfold compile parse
  rw [show parseFuel [c, '+'] = 23 + 1 from rfl]
  rw [parseClause]
  rw [if_neg (show ¬(peekChar ⟨[c, '+'], 0, []⟩ = rError ∨
      peekChar ⟨[c, '+'], 0, []⟩ = ')') from
    by rw [h0]; simp [hnerr, hrp])]
  rw [if_neg (show ¬peekChar ⟨[c, '+'], 0, []⟩ = '|' from
    by rw [h0]; exact hpp)]
  rw [hterm]
  simp only [concat]
  rw [show (23 : Nat) = 22 + 1 from rfl]
  rw [parseClause]
  rw [if_pos (Or.inl (show peekChar ⟨[c, '+'], 2,
    [⟨.literal c, [], some 1⟩, ⟨.plus, [0], none⟩]⟩ = rError from
    peekChar_none rfl))]
  rfl

theorem plus_step0 (c : Char) :
    stepInto (plusRe c).nodes c [] 0 = [1, 0, 2] := by
  have hm : nodeMatches (getN (plusRe c).nodes 0) c = true := by
    show (c == c) = true
    exact beq_self_eq_true c
  unfold stepInto
  simp only []
  rw [if_pos hm]
  rfl

theorem plus_matchStep (c : Char) :
    matchStep (plusRe c).nodes [1, 0, 2] c = [1, 0, 2] := by
  show stepInto (plusRe c).nodes c
    (stepInto (plusRe c).nodes c (stepInto (plusRe c).nodes c [] 1) 0) 2
    = [1, 0, 2]
  rw [show stepInto (plusRe c).nodes c [] 1 = [] from rfl]
  rw [plus_step0]
  rfl

theorem plus_loop (c : Char) :
    ∀ n, matchRun (plusRe c).nodes 2 [1, 0, 2] (List.replicate n c) = true := by
  intro n
  induction n with
  | zero => rfl
  | succ n ih =>
    rw [List.replicate_succ]
    show (if matchStep (plusRe c).nodes [1, 0, 2] c = [] then false
      else matchRun (plusRe c).nodes 2 (matchStep (plusRe c).nodes [1, 0, 2] c)
        (List.replicate n c)) = true
    rw [plus_matchStep]
    rw [if_neg (by simp)]
    exact ih

theorem plus_matches (c : Char) :
    (∀ n, 1 ≤ n → matchString (plusRe c) (List.replicate n c) = true) ∧
    matchString (plusRe c) [] = false := by
  constructor
  · intro n hn
    obtain ⟨m, rfl⟩ : ∃ m, n = m + 1 := ⟨n - 1, by omega⟩
    rw [List.replicate_succ]
    show (if matchStep (plusRe c).nodes [0] c = [] then false
      else matchRun (plusRe c).nodes 2 (matchStep (plusRe c).nodes [0] c)
        (List.replicate m c)) = true
    rw [show matchStep (plusRe c).nodes [0] c =
      stepInto (plusRe c).nodes c [] 0 from rfl]
    rw [plus_step0]
    rw [if_neg (by simp)]
    exact plus_loop c m
  · rfl

theorem starA_loop :
    ∀ m, matchRun starA.nodes 2 [1, 0, 2] (List.replicate m 'a') = true := by
  intro m
  induction m with
  | zero => rfl
  | succ m ih =>
    rw [List.replicate_succ]
    show (if matchStep starA.nodes [1, 0, 2] 'a' = [] then false
      else matchRun starA.nodes 2 (matchStep starA.nodes [1, 0, 2] 'a')
        (List.replicate m 'a')) = true
    rw [show matchStep starA.nodes [1, 0, 2] 'a' = [1, 0, 2] from rfl]
    rw [if_neg (by simp)]
    exact ih

theorem starA_all :
    ∀ n, matchString starA (List.replicate n 'a') = true := by
  intro n
  cases n with
  | zero => rfl
  | succ m =>
    rw [List.replicate_succ]
    show (if matchStep starA.nodes [0, 1, 2] 'a' = [] then false
      else matchRun starA.nodes 2 (matchStep starA.nodes [0, 1, 2] 'a')
        (List.replicate m 'a')) = true
    rw [show matchStep starA.nodes [0, 1, 2] 'a' = [1, 0, 2] from rfl]
    rw [if_neg (by simp)]
    exact starA_loop m

/-- C2: Quantifier semantics: the compiled pattern `a+` rejects the empty
string and accepts `a` repeated `n` times for every `n ≥ 1`; the compiled
pattern `a*` accepts `a` repeated `n` times for every `n ≥ 0`; the compiled
pattern `a?b` accepts `b` and `ab` and rejects `aab`. -/
theorem C2_quantifiers :
    compileMatch ['a', '+'] [] = some false ∧
    (∀ n, 1 ≤ n → compileMatch ['a', '+'] (List.replicate n 'a') = some true) ∧
    (∀ n, compileMatch ['a', '*'] (List.replicate n 'a') = some true) ∧
    compileMatch ['a', '?', 'b'] ['b'] = some true ∧
    compileMatch ['a', '?', 'b'] ['a', 'b'] = some true ∧
    compileMatch ['a', '?', 'b'] ['a', 'a', 'b'] = some false := by
  refine ⟨by decide, ?_, ?_, by decide, by decide, by decide⟩
  · intro n hn
    unfold compileMatch
    rw [show compile ['a', '+'] = .ok (plusRe 'a') from by decide]
    show some (matchString (plusRe 'a') (List.replicate n 'a')) = some true
    exact congrArg some ((plus_matches 'a').1 n hn)
  · intro n
    unfold compileMatch
    rw [show compile ['a', '*'] = .ok starA from by decide]
    show some (matchString starA (List.replicate n 'a')) = some true
    exact congrArg some (starA_all n)

/-- C2 witness: `a+` on three `a`s and `a*` on four `a`s. -/
theorem C2_quantifiers_witness :
    (1 ≤ 3 ∧ compileMatch ['a', '+'] (List.replicate 3 'a') = some true) ∧
    compileMatch ['a', '*'] (List.replicate 4 'a') = some true :=
  ⟨⟨by decide, C2_quantifiers.2.1 3 (by decide)⟩, C2_quantifiers.2.2.1 4⟩

/-- C7: Quantifiers are not stackable: for every plain literal followed by
two quantifier characters (and anything after), `Compile` returns an
error — after applying the first quantifier the parser begins a new term
at the second quantifier character, an illegal leading metacharacter. -/
theorem C7_stacked_quantifiers (c q₁ q₂ : Char) (rest : List Char)
    (hc : plainChar c)
    (hA : q₁ = '?' ∨ q₁ = '+' ∨ q₁ = '*')
    (hB : q₂ = '?' ∨ q₂ = '+' ∨ q₂ = '*') :
    compile (c :: q₁ :: q₂ :: rest) = .err := by
  obtain ⟨hnm, hnerr⟩ := hc
  obtain ⟨hq1, hq2, hq3, hlp, hrp, hpp, hbs, hdd⟩ :
      c ≠ '?' ∧ c ≠ '+' ∧ c ≠ '*' ∧ c ≠ '(' ∧ c ≠ ')' ∧ c ≠ '|' ∧
      c ≠ '\\' ∧ c ≠ '.' := by
    simpa [metaChars] using hnm
  have hpeek0 : peekChar ⟨c :: q₁ :: q₂ :: rest, 0, []⟩ = c :=
    peekChar_some rfl
  have hne0 : peekChar ⟨c :: q₁ :: q₂ :: rest, 0, []⟩ ≠ rError := by
    rw [hpeek0]; exact hnerr
  have hq1pk : peekChar ⟨c :: q₁ :: q₂ :: rest, 1,
      [⟨.literal c, [], none⟩]⟩ = q₁ := peekChar_some rfl
  have hApk : peekChar ⟨c :: q₁ :: q₂ :: rest, 1,
        [⟨.literal c, [], none⟩]⟩ = '?' ∨
      peekChar ⟨c :: q₁ :: q₂ :: rest, 1,
        [⟨.literal c, [], none⟩]⟩ = '+' ∨
      peekChar ⟨c :: q₁ :: q₂ :: rest, 1,
        [⟨.literal c, [], none⟩]⟩ = '*' := by
    rw [hq1pk]; exact hA
  obtain ⟨-, hin, hpos, -, -⟩ := parseMeta_spec (⟨0, 0⟩ : Frag) hApk
  have hpos2 : (parseMeta ⟨c :: q₁ :: q₂ :: rest, 1,
      [⟨.literal c, [], none⟩]⟩ ⟨0, 0⟩).1.pos = 2 := hpos.trans rfl
  have hg2 : (parseMeta ⟨c :: q₁ :: q₂ :: rest, 1,
        [⟨.literal c, [], none⟩]⟩ ⟨0, 0⟩).1.input.get?
      ((parseMeta ⟨c :: q₁ :: q₂ :: rest, 1,
        [⟨.literal c, [], none⟩]⟩ ⟨0, 0⟩).1.pos) = some q₂ := by
    rw [hin, hpos2]
    rfl
  have hpk2 : peekChar (parseMeta ⟨c :: q₁ :: q₂ :: rest, 1,
      [⟨.literal c, [], none⟩]⟩ ⟨0, 0⟩).1 = q₂ := peekChar_some hg2
  have hq2n : ¬(q₂ = rError ∨ q₂ = ')') := by
    rcases hB with h | h | h <;> subst h <;> decide
  have hq2p : q₂ ≠ '|' := by
    rcases hB with h | h | h <;> subst h <;> decide
  have hterm1 : ∀ g, parseTerm (g + 1) ⟨c :: q₁ :: q₂ :: rest, 0, []⟩ =
      .ok (parseMeta ⟨c :: q₁ :: q₂ :: rest, 1,
          [⟨.literal c, [], none⟩]⟩ ⟨0, 0⟩).2
        (parseMeta ⟨c :: q₁ :: q₂ :: rest, 1,
          [⟨.literal c, [], none⟩]⟩ ⟨0, 0⟩).1 := by
    intro g
    rw [parseTerm]
    rw [if_neg (show ¬(peekChar ⟨c :: q₁ :: q₂ :: rest, 0, []⟩ = '?' ∨
        peekChar ⟨c :: q₁ :: q₂ :: rest, 0, []⟩ = '+' ∨
        peekChar ⟨c :: q₁ :: q₂ :: rest, 0, []⟩ = '*') from
      by rw [hpeek0]; simp [hq1, hq2, hq3])]
    rw [if_neg (show ¬peekChar ⟨c :: q₁ :: q₂ :: rest, 0, []⟩ = '(' from
        by rw [hpeek0]; exact hlp),
      if_neg (show ¬peekChar ⟨c :: q₁ :: q₂ :: rest, 0, []⟩ = '\\' from
        by rw [hpeek0]; exact hbs),
      if_neg (show ¬peekChar ⟨c :: q₁ :: q₂ :: rest, 0, []⟩ = '.' from
        by rw [hpeek0]; exact hdd)]
    rw [parseLiteral_spec hne0]
    rw [hpeek0]
    simp only [List.nil_append, List.length_nil, Nat.zero_add]
    rw [if_pos hApk]
  have hterm2 : ∀ g, parseTerm (g + 1) (parseMeta ⟨c :: q₁ :: q₂ :: rest, 1,
      [⟨.literal c, [], none⟩]⟩ ⟨0, 0⟩).1 = .err := by
    intro g
    rw [parseTerm]
    rw [hpk2]
    rw [if_pos hB]
  obtain ⟨f, hf⟩ : ∃ f, parseFuel (c :: q₁ :: q₂ :: rest) = f + 1 + 1 + 1 := by
    refine ⟨4 * rest.length + 25, ?_⟩
    unfold parseFuel
    simp only [List.length_cons]
    omega
  unfold compile parse
  rw [hf]
  rw [parseClause]
  rw [if_neg (show ¬(peekChar ⟨c :: q₁ :: q₂ :: rest, 0, []⟩ = rError ∨
      peekChar ⟨c :: q₁ :: q₂ :: rest, 0, []⟩ = ')') from
    by rw [hpeek0]; simp [hnerr, hrp])]
  rw [if_neg (show ¬peekChar ⟨c :: q₁ :: q₂ :: rest, 0, []⟩ = '|' from
    by rw [hpeek0]; exact hpp)]
  rw [hterm1 (f + 1)]
  simp only [concat]
  rw [parseClause]
  rw [hpk2]
  rw [if_neg hq2n]
  rw [if_neg hq2p]
  rw [hterm2 f]

theorem leadQuantErr (q : Char) (rest : List Char)
    (hq : q = '?' ∨ q = '+' ∨ q = '*') : compile (q :: rest) = .err := by
  have hq2n : ¬(q = rError ∨ q = ')') := by
    rcases hq with h | h | h <;> subst h <;> decide
  have hq2p : q ≠ '|' := by
    rcases hq with h | h | h <;> subst h <;> decide
  have hpk : peekChar ⟨q :: rest, 0, []⟩ = q := peekChar_some rfl
  obtain ⟨f, hf⟩ : ∃ f, parseFuel (q :: rest) = f + 1 + 1 := by
    refine ⟨4 * rest.length + 18, ?_⟩
    unfold parseFuel
    simp only [List.length_cons]
    omega
  unfold compile parse
  rw [hf]
  rw [parseClause]
  rw [hpk]
  rw [if_neg hq2n]
  rw [if_neg hq2p]
  rw [show parseTerm (f + 1) ⟨q :: rest, 0, []⟩ = .err from by
    rw [parseTerm]
    rw [hpk]
    rw [if_pos hq]]

theorem escapeErr (c : Char)
    (hc : ¬(c = '?' ∨ c = '*' ∨ c = '+' ∨ c = '(' ∨ c = ')' ∨ c = '|')) :
    compile ['\\', c] = .err := by
  have hpk0 : peekChar ⟨['\\', c], 0, []⟩ = '\\' := peekChar_some rfl
  have hpk1 : peekChar ⟨['\\', c], 1, []⟩ = c := peekChar_some rfl
  have hcx : ¬(peekChar ⟨['\\', c], 1, []⟩ = '?' ∨
      peekChar ⟨['\\', c], 1, []⟩ = '*' ∨
      peekChar ⟨['\\', c], 1, []⟩ = '+' ∨
      peekChar ⟨['\\', c], 1, []⟩ = '(' ∨
      peekChar ⟨['\\', c], 1, []⟩ = ')' ∨
      peekChar ⟨['\\', c], 1, []⟩ = '|') := by
    rw [hpk1]; exact hc
  have hesc : parseEscape ⟨['\\', c], 0, []⟩ = .err := by
    show (if peekChar ⟨['\\', c], 1, []⟩ = '?' ∨
        peekChar ⟨['\\', c], 1, []⟩ = '*' ∨
        peekChar ⟨['\\', c], 1, []⟩ = '+' ∨
        peekChar ⟨['\\', c], 1, []⟩ = '(' ∨
        peekChar ⟨['\\', c], 1, []⟩ = ')' ∨
        peekChar ⟨['\\', c], 1, []⟩ = '|' then
      parseLiteral ⟨['\\', c], 1, []⟩ else .err) = .err
    exact if_neg hcx
  unfold compile parse
  rw [show parseFuel ['\\', c] = 23 + 1 from rfl]
  rw [parseClause]
  rw [if_neg (show ¬(peekChar ⟨['\\', c], 0, []⟩ = rError ∨
      peekChar ⟨['\\', c], 0, []⟩ = ')') from by rw [hpk0]; decide)]
  rw [if_neg (show ¬peekChar ⟨['\\', c], 0, []⟩ = '|' from
    by rw [hpk0]; decide)]
  rw [show parseTerm 23 ⟨['\\', c], 0, []⟩ = .err from by
    rw [show (23 : Nat) = 22 + 1 from rfl]
    rw [parseTerm]
    rw [if_neg (show ¬(peekChar ⟨['\\', c], 0, []⟩ = '?' ∨
        peekChar ⟨['\\', c], 0, []⟩ = '+' ∨
        peekChar ⟨['\\', c], 0, []⟩ = '*') from by rw [hpk0]; decide)]
    rw [if_neg (show ¬peekChar ⟨['\\', c], 0, []⟩ = '(' from
      by rw [hpk0]; decide)]
    rw [if_pos (show peekChar ⟨['\\', c], 0, []⟩ = '\\' from hpk0)]
    rw [hesc]]

/-- C6: Malformed patterns fail compilation with an error, never a panic:
unmatched `)` or `(`, any leading quantifier, an empty alternation
operand, and an unknown escape all make `Compile` return an error, and
only `MustCompile` turns a compile error into an abort (modeled as
`none`). -/
theorem C6_malformed_errors :
    compile [')'] = .err ∧
    compile ['('] = .err ∧
    (∀ q rest, q = '?' ∨ q = '+' ∨ q = '*' → compile (q :: rest) = .err) ∧
    compile ['|'] = .err ∧
    compile ['|', 'a'] = .err ∧
    compile ['(', ')', '|', '|'] = .err ∧
    (∀ c, ¬(c = '?' ∨ c = '*' ∨ c = '+' ∨ c = '(' ∨ c = ')' ∨ c = '|') →
      compile ['\\', c] = .err) ∧
    (∀ p r, compile p = .ok r → mustCompile p = some r) ∧
    (∀ p, compile p = .err → mustCompile p = none) := by
  refine ⟨by decide, by decide, leadQuantErr, by decide, by decide, by decide,
    escapeErr, ?_, ?_⟩
  · intro p r h
    unfold mustCompile
    rw [h]
  · intro p h
    unfold mustCompile
    rw [h]

/-- C6 witness: `*a`, `\y`, the empty pattern through `MustCompile`, and
`)` through `MustCompile`. -/
theorem C6_malformed_errors_witness :
    (('*' = '?' ∨ '*' = '+' ∨ '*' = '*') ∧ compile ['*', 'a'] = CRes.err) ∧
    (¬('y' = '?' ∨ 'y' = '*' ∨ 'y' = '+' ∨ 'y' = '(' ∨ 'y' = ')' ∨
        'y' = '|') ∧
      compile ['\\', 'y'] = CRes.err) ∧
    (compile [] = CRes.ok emptyRe ∧ mustCompile [] = some emptyRe) ∧
    (compile [')'] = CRes.err ∧ mustCompile [')'] = none) :=
  ⟨⟨by decide, C6_malformed_errors.2.2.1 '*' ['a'] (by decide)⟩,
   ⟨by decide, C6_malformed_errors.2.2.2.2.2.2.1 'y' (by decide)⟩,
   ⟨by decide, C6_malformed_errors.2.2.2.2.2.2.2.1 [] emptyRe (by decide)⟩,
   ⟨by decide, C6_malformed_errors.2.2.2.2.2.2.2.2 [')'] (by decide)⟩⟩

/-- C7 witness: the pattern `a**`. -/
theorem C7_stacked_quantifiers_witness :
    plainChar 'a' ∧ ('*' = '?' ∨ '*' = '+' ∨ '*' = '*') ∧
    compile ['a', '*', '*'] = CRes.err :=
  ⟨by decide, by decide,
    C7_stacked_quantifiers 'a' '*' '*' [] (by decide) (by decide) (by decide)⟩

/-- C8: Multi-byte code points are matched as single units: for a pattern
of one multi-byte literal code point followed by `'+'`, the compiled
pattern rejects the empty string and accepts the code point repeated `n`
times for every `n ≥ 1`. -/
theorem C8_multibyte_plus (c : Char) (r : Regexp) (hc : 0x80 ≤ c.toNat)
    (hok : compile [c, '+'] = .ok r) :
    matchString r [] = false ∧
    ∀ n, 1 ≤ n → matchString r (List.replicate n c) = true := by
  have hnf := compile_ok_no_rError _ _ hok
  have hfe : c ≠ rError := by
    intro h
    exact hnf (h ▸ List.mem_cons_self c ['+'])
  have hpl : plainChar c := by
    refine ⟨?_, hfe⟩
    intro hmem
    simp only [metaChars, List.mem_cons, List.not_mem_nil, or_false] at hmem
    rcases hmem with h | h | h | h | h | h | h | h <;> subst h <;>
      exact absurd hc (by decide)
  have hcp := plusCompile c hpl
  rw [hok] at hcp
  have hr : r = plusRe c := CRes.ok.inj hcp
  subst hr
  exact ⟨(plus_matches c).2, (plus_matches c).1⟩

/-- C8 witness: the emoji pattern. -/
theorem C8_multibyte_plus_witness :
    0x80 ≤ '😃'.toNat ∧ compile ['😃', '+'] = .ok (plusRe '😃') ∧
    (matchString (plusRe '😃') [] = false ∧
      (1 ≤ 2 ∧ matchString (plusRe '😃') (List.replicate 2 '😃') = true)) := by
  refine ⟨by decide, by decide, ?_, by decide, ?_⟩
  · exact (C8_multibyte_plus '😃' (plusRe '😃') (by decide) (by decide)).1
  · exact (C8_multibyte_plus '😃' (plusRe '😃') (by decide) (by decide)).2
      2 (by decide)

/-- C3: Alternation semantics: the compiled pattern `a|b` accepts the
input `a` and the input `b`, and rejects the input `ab`. -/
theorem C3_alternation :
    compileMatch ['a', '|', 'b'] ['a'] = some true ∧
    compileMatch ['a', '|', 'b'] ['b'] = some true ∧
    compileMatch ['a', '|', 'b'] ['a', 'b'] = some false := by
  decide

/-- C4: The empty pattern compiles and matches exactly the empty input,
and the compiled entry node's epsilon closure is exactly the singleton set
containing the Terminal node (here the entry is the terminal itself). -/
theorem C4_empty_pattern :
    compile [] = .ok emptyRe ∧
    compileMatch [] [] = some true ∧
    (∀ c cs, compileMatch [] (c :: cs) = some false) ∧
    nsAdd emptyRe.nodes (closureFuel emptyRe.nodes) [] emptyRe.start
      = [emptyRe.term] := by
  refine ⟨by decide, by decide, ?_, by decide⟩
  intro c cs
  show (match compile [] with
    | .ok r => some (matchString r (c :: cs))
    | _ => none) = some false
  rw [show compile [] = .ok emptyRe from by decide]
  simp only [matchString, emptyRe]
  rw [show nsAdd [⟨.terminal, [], none⟩] (closureFuel [⟨.terminal, [], none⟩])
      [] 0 = [0] from by decide]
  simp [matchRun, matchStep, stepInto, getN, nodeMatches]

end RegexpNFA
